import Mathlib

/-!
# chalkboard: edge-mask generation (`main.go`)

A shallow embedding of `createMask`, `invertImage` and the argument handling of `main`,
followed by the properties established about them.

Modelling conventions.

* Go `int` is the 64-bit two's complement integer.  Values are mathematical integers
  (`Int`); an addition or subtraction that involves the command-line integers
  `threshold` and `thickness` is passed through `wrap`, which reduces it to the
  64-bit range exactly as the machine does.
* `uint8` is `Fin 256` (named `U8`); its subtraction is subtraction modulo 256.
* `*image.Gray` (standard library) is a rectangle together with a byte for every
  coordinate pair.  `GrayAt` and `SetGray` perform the library's bounds check; the
  row-major `Pix`/`Stride` buffer is abstracted into that map.
* A loop `for v := lo; v < hi; v++` visits `lo, lo+1, ..., hi-1` and always ends.
  A loop `for v := lo; v <= hi; v++` over `int` never ends when `hi` is the largest
  `int` (the increment wraps around); a computation that does not end is `none`.
-/

namespace Chalkboard

/-! ## Machine integers -/

/-- Smallest Go `int`. -/
def intMin : Int := -9223372036854775808

/-- Largest Go `int`. -/
def intMax : Int := 9223372036854775807

/-- Two's complement reduction of a mathematical integer to the 64-bit `int` range. -/
def wrap (z : Int) : Int :=
  (z + 9223372036854775808) % 18446744073709551616 - 9223372036854775808

/-- The Go type `uint8`. -/
abbrev U8 := Fin 256

/-- Integer part of the square root, by upward search (`fuel` bounds the number of steps). -/
def sqrtGo (n : Nat) : Nat → Nat → Nat
  | 0, r => r
  | fuel + 1, r => if (r + 1) * (r + 1) ≤ n then sqrtGo n fuel (r + 1) else r

/-- Integer part of the square root of `n`: what `math.Sqrt(float64(n))` truncates to for
the values that occur here (`n ≤ 2 * 255 * 255`, far below the 2^53 limit of exactness). -/
def isqrt (n : Nat) : Nat := sqrtGo n n 0

/-! ## The image library -/

/-- Go `image.Point`. -/
structure Point where
  X : Int
  Y : Int
deriving DecidableEq

/-- Go `image.Rectangle`: the points with `Min.X ≤ x < Max.X` and `Min.Y ≤ y < Max.Y`. -/
structure Rectangle where
  Min : Point
  Max : Point
deriving DecidableEq

/-- Go `Point.In`. -/
def Point.In (p : Point) (r : Rectangle) : Bool :=
  decide (r.Min.X ≤ p.X) && decide (p.X < r.Max.X) &&
  decide (r.Min.Y ≤ p.Y) && decide (p.Y < r.Max.Y)

/-- Rectangles an image can have: well formed (`Min ≤ Max`) and with every coordinate
strictly inside the `int` range, so that the `± 1` of the scanning loops never wraps. -/
def Rectangle.Valid (r : Rectangle) : Prop :=
  intMin < r.Min.X ∧ r.Min.X ≤ r.Max.X ∧ r.Max.X < intMax ∧
  intMin < r.Min.Y ∧ r.Min.Y ≤ r.Max.Y ∧ r.Max.Y < intMax

instance (r : Rectangle) : Decidable r.Valid := by
  unfold Rectangle.Valid
  infer_instance

/-- Go `*image.Gray`. -/
structure Gray where
  Pix : Int → Int → U8
  Rect : Rectangle
  valid : Rect.Valid

/-- Go `(*image.Gray).Bounds`. -/
def Gray.Bounds (p : Gray) : Rectangle := p.Rect

/-- Go `(*image.Gray).GrayAt`, returning the `Y` field of the colour: the stored byte
inside the bounds, zero outside. -/
def Gray.GrayAt (p : Gray) (x y : Int) : U8 :=
  if Point.In ⟨x, y⟩ p.Rect then p.Pix x y else 0

/-- Go `(*image.Gray).SetGray` with colour `color.Gray{Y: c}`: stores inside the bounds,
does nothing outside. -/
def Gray.SetGray (p : Gray) (x y : Int) (c : U8) : Gray :=
  if Point.In ⟨x, y⟩ p.Rect then
    { p with Pix := fun x1 y1 => if x1 = x ∧ y1 = y then c else p.Pix x1 y1 }
  else p

/-- Go `image.NewGray`: an all-zero image with the given bounds. -/
def NewGray (r : Rectangle) (h : r.Valid) : Gray :=
  { Pix := fun _ _ => 0, Rect := r, valid := h }

/-! ## Loops -/

/-- The values `lo, lo+1, ..., hi-1`. -/
def rangeLt (lo hi : Int) : List Int :=
  (List.range (hi - lo).toNat).map (fun (k : Nat) => lo + (k : Int))

/-- Loop `for v := lo; v < hi; v++ { s = body v s }`. -/
def forLt {σ : Type} (lo hi : Int) (body : Int → σ → σ) (s : σ) : σ :=
  (rangeLt lo hi).foldl (fun s v => body v s) s

/-- Loop `for v := lo; v < hi; v++` with a body that may fail to end. -/
def forLtM {σ : Type} (lo hi : Int) (body : Int → σ → Option σ) (s : σ) : Option σ :=
  (rangeLt lo hi).foldlM (fun s v => body v s) s

/-- Loop `for v := lo; v <= hi; v++` over `int`: it never ends when `hi` is the largest
`int`, and otherwise visits `lo, ..., hi`. -/
def forLeM {σ : Type} (lo hi : Int) (body : Int → σ → Option σ) (s : σ) : Option σ :=
  if hi = intMax then none else forLtM lo (hi + 1) body s

/-! ## `createMask` -/

/-- Intensity at `(x, y)` as an `int`: `int(img.GrayAt(x, y).Y)`. -/
def Gray.intAt (img : Gray) (x y : Int) : Int := ((img.GrayAt x y).val : Int)

/-- The local `gradient` of `createMask` (lines 130-134):
`uint8(math.Sqrt(float64(dx*dx + dy*dy)))`.  The sum is at most `2 * 255 * 255`, so the
square root is at most 360; the conversion to `uint8` truncates the fraction and keeps
the low 8 bits of the integer part (the behaviour of the Go compiler on 64-bit targets
for a value outside the range of the target type). -/
def gradient (img : Gray) (x y : Int) : Nat :=
  let dx : Int := img.intAt (x + 1) y - img.intAt (x - 1) y
  let dy : Int := img.intAt x (y + 1) - img.intAt x (y - 1)
  isqrt (dx * dx + dy * dy).toNat % 256

/-- The condition of the `if` of `createMask` (lines 137-145). -/
def edgeTest (img : Gray) (threshold x y : Int) : Bool :=
  let g : Int := (gradient img x y : Int)
  decide (g > threshold) ||
  decide (g > wrap (img.intAt (x - 1) (y - 1) + threshold)) ||
  decide (g > wrap (img.intAt x (y - 1) + threshold)) ||
  decide (g > wrap (img.intAt (x + 1) (y - 1) + threshold)) ||
  decide (g > wrap (img.intAt (x - 1) y + threshold)) ||
  decide (g > wrap (img.intAt (x + 1) y + threshold)) ||
  decide (g > wrap (img.intAt (x - 1) (y + 1) + threshold)) ||
  decide (g > wrap (img.intAt x (y + 1) + threshold)) ||
  decide (g > wrap (img.intAt (x + 1) (y + 1) + threshold))

/-- The body of the innermost loop of `createMask` (lines 149-152). -/
def markPixel (bounds : Rectangle) (j i : Int) (mask : Gray) : Gray :=
  if i ≥ bounds.Min.Y ∧ i < bounds.Max.Y ∧ j ≥ bounds.Min.X ∧ j < bounds.Max.X then
    mask.SetGray j i 255
  else mask

/-- The two dilation loops of `createMask` (lines 147-154) around the pixel `(x, y)`. -/
def markSquare (bounds : Rectangle) (thickness x y : Int) (mask : Gray) : Option Gray :=
  forLeM (wrap (y - thickness)) (wrap (y + thickness))
    (fun i mask =>
      forLeM (wrap (x - thickness)) (wrap (x + thickness))
        (fun j mask => some (markPixel bounds j i mask)) mask)
    mask

/-- Go `createMask`. -/
def createMask (img : Gray) (threshold thickness : Int) : Option Gray :=
  let bounds := img.Bounds
  let mask := NewGray bounds img.valid
  forLtM (bounds.Min.Y + 1) (bounds.Max.Y - 1)
    (fun y mask =>
      forLtM (bounds.Min.X + 1) (bounds.Max.X - 1)
        (fun x mask =>
          if edgeTest img threshold x y then markSquare bounds thickness x y mask
          else some mask)
        mask)
    mask

/-! ## `invertImage` -/

/-- Go `invertImage`; the image updated in place is returned. -/
def invertImage (img : Gray) : Gray :=
  let bounds := img.Bounds
  forLt bounds.Min.Y bounds.Max.Y
    (fun y img =>
      forLt bounds.Min.X bounds.Max.X
        (fun x img => img.SetGray x y (255 - img.GrayAt x y)) img)
    img

/-! ## Argument handling of `main` -/

/-- Go `strconv.Atoi` (standard library), from its documentation: an optional sign
followed by one or more decimal digits, accepted when the value fits an `int`;
`none` stands for a non-nil error. -/
def Atoi (s : String) : Option Int :=
  let cs := s.toList
  let neg : Bool := cs.head? = some '-'
  let ds : List Char :=
    match cs with
    | '-' :: r => r
    | '+' :: r => r
    | _ => cs
  if ds.isEmpty then none
  else if ds.all Char.isDigit then
    let n : Int := ds.foldl (fun n c => n * 10 + ((c.toNat - 48 : Nat) : Int)) 0
    let v : Int := if neg then -n else n
    if intMin ≤ v ∧ v ≤ intMax then some v else none
  else none

/-- What `main` has fixed once its arguments are read (lines 31-74). -/
structure Settings where
  inputFileName : String
  threshold : Int
  thickness : Int
  invert : Bool
deriving DecidableEq

/-- How the argument handling of `main` ends: the usage message (line 26), a fatal
pattern error (line 36), "No image files found." (line 40), or the run of the pipeline
with the settings read. -/
inductive Outcome where
  | usage
  | globError
  | noFiles
  | run (s : Settings)
deriving DecidableEq

/-- Lines 25-74 of `main`.  `osArgs` is `os.Args`; `glob` is `filepath.Glob` on the
file system at hand (`none` for a malformed pattern). -/
def mainArgs (osArgs : List String) (glob : String → Option (List String)) : Outcome :=
  if osArgs.length < 2 then Outcome.usage
  else
    match glob (osArgs.getD 1 "") with
    | none => Outcome.globError
    | some files =>
      if files.length < 1 then Outcome.noFiles
      else
        let inputFileName := files.getD 0 ""
        let threshold0 : Int := 20
        let thickness0 : Int := 0
        let threshold : Int :=
          if osArgs.length ≥ 4 then
            match Atoi (osArgs.getD 2 "") with
            | some v => v
            | none => 50
          else threshold0
        let thickness : Int :=
          if osArgs.length ≥ 4 then
            match Atoi (osArgs.getD 3 "") with
            | some v => v
            | none => 1
          else thickness0
        let invert : Bool := (osArgs.drop 1).any (fun arg => arg == "-invert")
        Outcome.run ⟨inputFileName, threshold, thickness, invert⟩

/-- Lines 89-95 of `main`: the mask handed to `saveMask`. -/
def mainMask (s : Settings) (grayImage : Gray) : Option Gray :=
  (createMask grayImage s.threshold s.thickness).map
    (fun mask => if s.invert then invertImage mask else mask)

/-! ## Vocabulary of the properties -/

/-- Pixel `(x, y)` is scanned by `createMask`: at least one pixel away from every edge. -/
def Interior (r : Rectangle) (x y : Int) : Prop :=
  r.Min.X + 1 ≤ x ∧ x < r.Max.X - 1 ∧ r.Min.Y + 1 ≤ y ∧ y < r.Max.Y - 1

instance (r : Rectangle) (x y : Int) : Decidable (Interior r x y) := by
  unfold Interior
  infer_instance

/-- Pixel `(x, y)` lies in the first or last column or the first or last row. -/
def Border (r : Rectangle) (x y : Int) : Prop :=
  x = r.Min.X ∨ x = r.Max.X - 1 ∨ y = r.Min.Y ∨ y = r.Max.Y - 1

/-- The dilation arithmetic of `createMask` stays clear of the ends of the `int` range:
for every scanned coordinate `v`, both `v - thickness` and `v + thickness` are
representable and below the largest `int`. -/
def Fits (r : Rectangle) (thickness : Int) : Prop :=
  intMin ≤ r.Min.X + 1 - |thickness| ∧ r.Max.X - 2 + |thickness| < intMax ∧
  intMin ≤ r.Min.Y + 1 - |thickness| ∧ r.Max.Y - 2 + |thickness| < intMax

instance (r : Rectangle) (thickness : Int) : Decidable (Fits r thickness) := by
  unfold Fits
  infer_instance

/-- Image `m1` is `m` with `f` applied to the pixels selected by `S`, and nothing else
changed. -/
def Upd (f : U8 → U8) (S : Int → Int → Prop) (m m1 : Gray) : Prop :=
  m1.Rect = m.Rect ∧
  ∀ j i, (S j i → m1.GrayAt j i = f (m.GrayAt j i)) ∧ (¬ S j i → m1.GrayAt j i = m.GrayAt j i)

/-- The pixels written by the dilation loops around `(x, y)`, with the loop limits as the
machine computes them. -/
def InSquare (r : Rectangle) (thickness x y j i : Int) : Prop :=
  (wrap (y - thickness) ≤ i ∧ i ≤ wrap (y + thickness)) ∧
  (wrap (x - thickness) ≤ j ∧ j ≤ wrap (x + thickness)) ∧
  Point.In ⟨j, i⟩ r = true

/-- The Euclidean magnitude named by the specification: the integer part of
`sqrt(dx*dx + dy*dy)`, not reduced to 8 bits. -/
def magnitude (img : Gray) (x y : Int) : Nat :=
  let dx : Int := img.intAt (x + 1) y - img.intAt (x - 1) y
  let dy : Int := img.intAt x (y + 1) - img.intAt x (y - 1)
  isqrt (dx * dx + dy * dy).toNat

/-- Pixel `(j, i)` lies inside the bounds and within `thickness` (in both directions) of a
scanned pixel that passes the edge test: the detected pixels dilated by a
`(2*thickness+1) x (2*thickness+1)` square and clipped to the image. -/
def Dilated (img : Gray) (threshold thickness j i : Int) : Prop :=
  Point.In ⟨j, i⟩ img.Rect = true ∧
  ∃ x y, Interior img.Rect x y ∧ edgeTest img threshold x y = true ∧
    |x - j| ≤ thickness ∧ |y - i| ≤ thickness

/-- The mask invariant: the bounds `r`, and every pixel 0 or 255. -/
def BinaryOn (r : Rectangle) (m : Gray) : Prop :=
  m.Rect = r ∧ ∀ x y, m.GrayAt x y = 0 ∨ m.GrayAt x y = 255

/-- The 3 x 3 rectangle with corner `(0, 0)`. -/
def rect3 : Rectangle := ⟨⟨0, 0⟩, ⟨3, 3⟩⟩

/-- A 3 x 3 image, black except for the pixel right of the centre. -/
def stepImage : Gray :=
  { Pix := fun x y => if x = 2 ∧ y = 1 then 100 else 0
    Rect := rect3
    valid := by decide }

/-- A 3 x 3 image with a strong diagonal edge at the centre: 200 to the right of it,
170 below it, 0 elsewhere. -/
def strongEdgeImage : Gray :=
  { Pix := fun x y => if x = 2 ∧ y = 1 then 200 else if x = 1 ∧ y = 2 then 170 else 0
    Rect := rect3
    valid := by decide }

/-- A 3 x 3 image of uniform intensity 1. -/
def uniformImage : Gray :=
  { Pix := fun _ _ => 1
    Rect := rect3
    valid := by decide }

/-- A file system on which every pattern matches exactly the file of that name. -/
def globSelf (pattern : String) : Option (List String) := some [pattern]

/-- The variant of `createMask` whose edge test is only `gradient > threshold`: the eight
neighbour comparisons of lines 138-145 are left out, everything else is `createMask`. -/
def createMaskThresholdOnly (img : Gray) (threshold thickness : Int) : Option Gray :=
  let bounds := img.Bounds
  let mask := NewGray bounds img.valid
  forLtM (bounds.Min.Y + 1) (bounds.Max.Y - 1)
    (fun y mask =>
      forLtM (bounds.Min.X + 1) (bounds.Max.X - 1)
        (fun x mask =>
          if decide ((gradient img x y : Int) > threshold) then
            markSquare bounds thickness x y mask
          else some mask)
        mask)
    mask

/-- The digits of `n`, most significant first, put in front of `acc` (`fuel` bounds the
number of digits). -/
def decimalGo : Nat → Nat → List Char → List Char
  | 0, _, acc => acc
  | fuel + 1, n, acc =>
    if n < 10 then Nat.digitChar n :: acc
    else decimalGo fuel (n / 10) (Nat.digitChar (n % 10) :: acc)

/-- The decimal numeral of the integer `t`, as typed on the command line (what Go's
`strconv.Itoa` prints): a minus sign for a negative value, then the digits. -/
def Itoa (t : Int) : String :=
  if t < 0 then String.mk ('-' :: decimalGo (t.natAbs + 1) t.natAbs [])
  else String.mk (decimalGo (t.natAbs + 1) t.natAbs [])

/-- The value `Atoi` accumulates over a digit string (its inner loop). -/
def digitsValue (ds : List Char) : Int :=
  ds.foldl (fun n c => n * 10 + ((c.toNat - 48 : Nat) : Int)) 0

/-- The sum `dx*dx + dy*dy` whose square root `createMask` takes (lines 130-134). -/
def sumSquares (img : Gray) (x y : Int) : Int :=
  let dx : Int := img.intAt (x + 1) y - img.intAt (x - 1) y
  let dy : Int := img.intAt x (y + 1) - img.intAt x (y - 1)
  dx * dx + dy * dy

/-- The image has non-negative coordinates not above 2^62, as every decoded image has
(its corner is `(0, 0)`). -/
def Decoded (r : Rectangle) : Prop :=
  0 ≤ r.Min.X ∧ 0 ≤ r.Min.Y ∧ r.Max.X ≤ 4611686018427387904 ∧ r.Max.Y ≤ 4611686018427387904

instance (r : Rectangle) : Decidable (Decoded r) := by
  unfold Decoded
  infer_instance

/-- A 3 x 3 black image with corner `(-2, -2)`; its only scanned pixel is `(-1, -1)`. -/
def shiftedImage : Gray :=
  { Pix := fun _ _ => 0
    Rect := ⟨⟨-2, -2⟩, ⟨1, 1⟩⟩
    valid := by decide }

/-! ## Machine integers: lemmas -/

theorem wrap_eq_self {z : Int} (h1 : intMin ≤ z) (h2 : z ≤ intMax) : wrap z = z := by
  simp only [intMin, intMax] at h1 h2
  unfold wrap
  omega

theorem wrap_bounds (z : Int) : intMin ≤ wrap z ∧ wrap z ≤ intMax := by
  simp only [intMin, intMax]
  unfold wrap
  omega

theorem u8_sub_val (v : U8) : ((255 : U8) - v).val = 255 - v.val := by
  rw [Fin.sub_def]
  simp
  omega

theorem u8_sub_sub (v : U8) : (255 : U8) - (255 - v) = v := by
  apply Fin.ext
  simp [Fin.sub_def]
  omega

/-! ## The image library: lemmas -/

theorem In_iff (x y : Int) (r : Rectangle) :
    Point.In ⟨x, y⟩ r = true ↔ r.Min.X ≤ x ∧ x < r.Max.X ∧ r.Min.Y ≤ y ∧ y < r.Max.Y := by
  simp [Point.In, and_assoc]

theorem Rect_SetGray (p : Gray) (x y : Int) (c : U8) : (p.SetGray x y c).Rect = p.Rect := by
  unfold Gray.SetGray
  split <;> rfl

theorem GrayAt_SetGray (p : Gray) (x y : Int) (c : U8) (x1 y1 : Int) :
    (p.SetGray x y c).GrayAt x1 y1 =
      if x1 = x ∧ y1 = y ∧ Point.In ⟨x, y⟩ p.Rect = true then c else p.GrayAt x1 y1 := by
  by_cases hin : Point.In ⟨x, y⟩ p.Rect = true
  · by_cases hxy : x1 = x ∧ y1 = y
    · obtain ⟨rfl, rfl⟩ := hxy
      simp [Gray.SetGray, Gray.GrayAt, hin]
    · have h2 : ¬ (x1 = x ∧ y1 = y ∧ Point.In ⟨x, y⟩ p.Rect = true) := fun h => hxy ⟨h.1, h.2.1⟩
      rw [if_neg h2]
      simp only [Gray.SetGray, Gray.GrayAt, hin, if_true, if_neg hxy]
  · have h2 : ¬ (x1 = x ∧ y1 = y ∧ Point.In ⟨x, y⟩ p.Rect = true) := fun h => hin h.2.2
    rw [if_neg h2]
    simp only [Gray.SetGray, if_neg hin]

theorem GrayAt_outside (p : Gray) (x y : Int) (h : ¬ Point.In ⟨x, y⟩ p.Rect = true) :
    p.GrayAt x y = 0 := by
  simp [Gray.GrayAt, h]

theorem GrayAt_NewGray (r : Rectangle) (h : r.Valid) (x y : Int) :
    (NewGray r h).GrayAt x y = 0 := by
  simp [Gray.GrayAt, NewGray]

/-! ## Loops: lemmas -/

theorem mem_rangeLt (lo hi v : Int) : v ∈ rangeLt lo hi ↔ lo ≤ v ∧ v < hi := by
  unfold rangeLt
  simp only [List.mem_map, List.mem_range]
  constructor
  · rintro ⟨k, hk, rfl⟩
    omega
  · intro h
    exact ⟨(v - lo).toNat, by omega, by omega⟩

theorem nodup_rangeLt (lo hi : Int) : (rangeLt lo hi).Nodup := by
  unfold rangeLt
  apply List.Nodup.map _ (List.nodup_range _)
  intro a b h
  simp only at h
  omega

theorem forLeM_eq {σ : Type} (lo hi : Int) (body : Int → σ → Option σ) (s : σ)
    (h : hi ≠ intMax) :
    forLeM lo hi body s = (rangeLt lo (hi + 1)).foldlM (fun s v => body v s) s := by
  simp [forLeM, forLtM, h]

/-! ## Pointwise updates -/

theorem Upd.congr {f : U8 → U8} {S T : Int → Int → Prop} {m m1 : Gray}
    (h : Upd f S m m1) (hST : ∀ j i, S j i ↔ T j i) : Upd f T m m1 := by
  refine ⟨h.1, fun j i => ⟨fun ht => (h.2 j i).1 ((hST j i).2 ht), fun hnt => ?_⟩⟩
  exact (h.2 j i).2 (fun hs => hnt ((hST j i).1 hs))

theorem Upd.refl_empty (f : U8 → U8) (m : Gray) : Upd f (fun _ _ => False) m m :=
  ⟨rfl, fun _ _ => ⟨fun h => h.elim, fun _ => rfl⟩⟩

/-- A pure loop whose steps update pairwise disjoint pixel sets updates their union. -/
theorem upd_foldl {α : Type} (f : U8 → U8) (r : Rectangle) (S : α → Int → Int → Prop)
    (body : α → Gray → Gray) (l : List α)
    (hd : l.Pairwise (fun a b => ∀ j i, S a j i → ¬ S b j i))
    (h : ∀ v ∈ l, ∀ m, m.Rect = r → Upd f (S v) m (body v m)) :
    ∀ m, m.Rect = r →
      Upd f (fun j i => ∃ v ∈ l, S v j i) m (l.foldl (fun s v => body v s) m) := by
  induction l with
  | nil =>
    intro m _
    exact (Upd.refl_empty f m).congr (by simp)
  | cons a l ih =>
    intro m hm
    rw [List.pairwise_cons] at hd
    have h1 := h a (List.mem_cons_self a l) m hm
    have h2 := ih hd.2 (fun v hv => h v (List.mem_cons_of_mem a hv)) (body a m) (h1.1.trans hm)
    rw [List.foldl_cons]
    refine ⟨h2.1.trans h1.1, fun j i => ⟨?_, ?_⟩⟩
    · rintro ⟨v, hv, hS⟩
      rcases List.mem_cons.mp hv with rfl | hv
      · have hno : ¬ ∃ w ∈ l, S w j i := by
          rintro ⟨w, hw, hSw⟩
          exact hd.1 w hw j i hS hSw
        rw [(h2.2 j i).2 hno, (h1.2 j i).1 hS]
      · by_cases hSa : S a j i
        · exact absurd hS (hd.1 v hv j i hSa)
        · rw [(h2.2 j i).1 ⟨v, hv, hS⟩, (h1.2 j i).2 hSa]
    · intro hno
      have hna : ¬ S a j i := fun hS => hno ⟨a, List.mem_cons_self a l, hS⟩
      have hnl : ¬ ∃ w ∈ l, S w j i := by
        rintro ⟨w, hw, hSw⟩
        exact hno ⟨w, List.mem_cons_of_mem a hw, hSw⟩
      rw [(h2.2 j i).2 hnl, (h1.2 j i).2 hna]

/-! ## `invertImage`: lemmas -/

theorem invert_step (m : Gray) (x y : Int) :
    Upd (fun v => 255 - v) (fun j i => j = x ∧ i = y ∧ Point.In ⟨j, i⟩ m.Rect = true) m
      (m.SetGray x y (255 - m.GrayAt x y)) := by
  refine ⟨Rect_SetGray _ _ _ _, fun j i => ⟨?_, ?_⟩⟩
  · rintro ⟨rfl, rfl, hin⟩
    rw [GrayAt_SetGray]
    simp [hin]
  · intro hn
    rw [GrayAt_SetGray]
    have : ¬ (j = x ∧ i = y ∧ Point.In ⟨x, y⟩ m.Rect = true) := by
      rintro ⟨rfl, rfl, hin⟩
      exact hn ⟨rfl, rfl, hin⟩
    rw [if_neg this]

theorem invert_row (r : Rectangle) (lo hi y : Int) (m : Gray) (hm : m.Rect = r) :
    Upd (fun v => 255 - v)
      (fun j i => (lo ≤ j ∧ j < hi) ∧ i = y ∧ Point.In ⟨j, i⟩ r = true) m
      (forLt lo hi (fun x img => img.SetGray x y (255 - img.GrayAt x y)) m) := by
  have h := upd_foldl (fun v => 255 - v) r
    (fun x j i => j = x ∧ i = y ∧ Point.In ⟨j, i⟩ r = true)
    (fun x img => img.SetGray x y (255 - img.GrayAt x y)) (rangeLt lo hi)
    ((nodup_rangeLt lo hi).imp (fun hab j i h1 h2 => hab (h1.1.symm.trans h2.1)))
    (fun x _ m1 hm1 => by
      have := invert_step m1 x y
      rw [hm1] at this
      exact this) m hm
  refine h.congr (fun j i => ?_)
  constructor
  · rintro ⟨v, hv, rfl, h2⟩
    exact ⟨(mem_rangeLt _ _ _).1 hv, h2⟩
  · rintro ⟨hj, h2⟩
    exact ⟨j, (mem_rangeLt _ _ _).2 hj, rfl, h2⟩

theorem invertImage_upd (img : Gray) :
    Upd (fun v => 255 - v) (fun j i => Point.In ⟨j, i⟩ img.Rect = true) img
      (invertImage img) := by
  have h := upd_foldl (fun v => 255 - v) img.Rect
    (fun y j i => (img.Rect.Min.X ≤ j ∧ j < img.Rect.Max.X) ∧ i = y ∧
      Point.In ⟨j, i⟩ img.Rect = true)
    (fun y m => forLt img.Rect.Min.X img.Rect.Max.X
      (fun x img => img.SetGray x y (255 - img.GrayAt x y)) m)
    (rangeLt img.Rect.Min.Y img.Rect.Max.Y)
    ((nodup_rangeLt _ _).imp (fun hab j i h1 h2 => hab (h1.2.1.symm.trans h2.2.1)))
    (fun y _ m1 hm1 => invert_row img.Rect _ _ y m1 hm1) img rfl
  refine h.congr (fun j i => ?_)
  constructor
  · rintro ⟨v, _, _, _, h3⟩
    exact h3
  · intro hin
    have h4 := (In_iff j i img.Rect).1 hin
    exact ⟨i, (mem_rangeLt _ _ _).2 ⟨h4.2.2.1, h4.2.2.2⟩, ⟨h4.1, h4.2.1⟩, rfl, hin⟩

/-! ## `createMask`: lemmas -/

/-- A loop whose steps all end and each set a pixel set to 255 ends, having set their
union to 255. -/
theorem marks_foldlM {α : Type} (r : Rectangle) (S : α → Int → Int → Prop)
    (body : α → Gray → Option Gray) (l : List α)
    (h : ∀ v ∈ l, ∀ m, m.Rect = r → ∃ m1, body v m = some m1 ∧ Upd (fun _ => 255) (S v) m m1) :
    ∀ m, m.Rect = r → ∃ m1, l.foldlM (fun s v => body v s) m = some m1 ∧
      Upd (fun _ => 255) (fun j i => ∃ v ∈ l, S v j i) m m1 := by
  induction l with
  | nil =>
    intro m _
    exact ⟨m, rfl, (Upd.refl_empty _ m).congr (by simp)⟩
  | cons a l ih =>
    intro m hm
    obtain ⟨m1, hb, h1⟩ := h a (List.mem_cons_self a l) m hm
    obtain ⟨m2, hf, h2⟩ :=
      ih (fun v hv => h v (List.mem_cons_of_mem a hv)) m1 (h1.1.trans hm)
    refine ⟨m2, ?_, h2.1.trans h1.1, fun j i => ⟨?_, ?_⟩⟩
    · rw [List.foldlM_cons, hb]
      exact hf
    · rintro ⟨v, hv, hS⟩
      by_cases hl : ∃ w ∈ l, S w j i
      · exact (h2.2 j i).1 hl
      · rcases List.mem_cons.mp hv with rfl | hv
        · rw [(h2.2 j i).2 hl]
          exact (h1.2 j i).1 hS
        · exact absurd ⟨v, hv, hS⟩ hl
    · intro hno
      have hna : ¬ S a j i := fun hS => hno ⟨a, List.mem_cons_self a l, hS⟩
      have hnl : ¬ ∃ w ∈ l, S w j i := by
        rintro ⟨w, hw, hSw⟩
        exact hno ⟨w, List.mem_cons_of_mem a hw, hSw⟩
      rw [(h2.2 j i).2 hnl, (h1.2 j i).2 hna]

/-- A property kept by every step that ends is kept by a loop that ends. -/
theorem foldlM_inv {α σ : Type} (P : σ → Prop) (body : α → σ → Option σ) (l : List α)
    (h : ∀ v s s1, P s → body v s = some s1 → P s1) :
    ∀ s s1, P s → l.foldlM (fun s v => body v s) s = some s1 → P s1 := by
  induction l with
  | nil =>
    intro s s1 hs he
    simp only [List.foldlM_nil] at he
    cases he
    exact hs
  | cons a l ih =>
    intro s s1 hs he
    rw [List.foldlM_cons] at he
    cases hb : body a s with
    | none => simp [hb] at he
    | some s2 =>
      rw [hb] at he
      exact ih s2 s1 (h a s s2 hs hb) he

theorem forLeM_inv {σ : Type} (P : σ → Prop) (lo hi : Int) (body : Int → σ → Option σ)
    (h : ∀ v s s1, P s → body v s = some s1 → P s1) (s s1 : σ) (hs : P s)
    (he : forLeM lo hi body s = some s1) : P s1 := by
  unfold forLeM at he
  split at he
  · cases he
  · exact foldlM_inv P body _ h s s1 hs he

theorem markPixel_upd (b : Rectangle) (j i : Int) (m : Gray) (hm : m.Rect = b) :
    Upd (fun _ => 255) (fun j1 i1 => j1 = j ∧ i1 = i ∧ Point.In ⟨j1, i1⟩ b = true) m
      (markPixel b j i m) := by
  unfold markPixel
  by_cases hin : Point.In ⟨j, i⟩ b = true
  · have hc : i ≥ b.Min.Y ∧ i < b.Max.Y ∧ j ≥ b.Min.X ∧ j < b.Max.X := by
      have := (In_iff j i b).1 hin
      omega
    rw [if_pos hc]
    refine ⟨Rect_SetGray _ _ _ _, fun j1 i1 => ⟨?_, ?_⟩⟩
    · rintro ⟨rfl, rfl, _⟩
      rw [GrayAt_SetGray, hm]
      simp [hin]
    · intro hn
      rw [GrayAt_SetGray, hm]
      have : ¬ (j1 = j ∧ i1 = i ∧ Point.In ⟨j, i⟩ b = true) := by
        rintro ⟨rfl, rfl, h3⟩
        exact hn ⟨rfl, rfl, h3⟩
      rw [if_neg this]
  · have hc : ¬ (i ≥ b.Min.Y ∧ i < b.Max.Y ∧ j ≥ b.Min.X ∧ j < b.Max.X) := by
      intro h
      exact hin ((In_iff j i b).2 (by omega))
    rw [if_neg hc]
    refine ⟨rfl, fun j1 i1 => ⟨?_, fun _ => rfl⟩⟩
    rintro ⟨rfl, rfl, h3⟩
    exact absurd h3 hin

/-- The inner dilation loop (line 148) for row `i`. -/
theorem markRow_upd (b : Rectangle) (lo hi i : Int) (m : Gray) (hm : m.Rect = b)
    (hhi : hi ≠ intMax) :
    ∃ m1, forLeM lo hi (fun j mask => some (markPixel b j i mask)) m = some m1 ∧
      Upd (fun _ => 255)
        (fun j1 i1 => i1 = i ∧ (lo ≤ j1 ∧ j1 ≤ hi) ∧ Point.In ⟨j1, i1⟩ b = true) m m1 := by
  rw [forLeM_eq _ _ _ _ hhi]
  obtain ⟨m1, he, hu⟩ := marks_foldlM b
    (fun j j1 i1 => j1 = j ∧ i1 = i ∧ Point.In ⟨j1, i1⟩ b = true)
    (fun j mask => some (markPixel b j i mask)) (rangeLt lo (hi + 1))
    (fun j _ m2 hm2 => ⟨_, rfl, markPixel_upd b j i m2 hm2⟩) m hm
  refine ⟨m1, he, hu.congr (fun j1 i1 => ?_)⟩
  constructor
  · rintro ⟨v, hv, rfl, h2, h3⟩
    have := (mem_rangeLt _ _ _).1 hv
    exact ⟨h2, ⟨this.1, by omega⟩, h3⟩
  · rintro ⟨h2, hj, h3⟩
    exact ⟨j1, (mem_rangeLt _ _ _).2 ⟨hj.1, by omega⟩, rfl, h2, h3⟩

/-- The two dilation loops end when neither upper limit is the largest `int`, and then
set to 255 exactly the pixels of `InSquare`. -/
theorem markSquare_upd (b : Rectangle) (t x y : Int) (m : Gray) (hm : m.Rect = b)
    (hy : wrap (y + t) ≠ intMax) (hx : wrap (x + t) ≠ intMax) :
    ∃ m1, markSquare b t x y m = some m1 ∧
      Upd (fun _ => 255) (fun j i => InSquare b t x y j i) m m1 := by
  unfold markSquare
  rw [forLeM_eq _ _ _ _ hy]
  obtain ⟨m1, he, hu⟩ := marks_foldlM b
    (fun i j1 i1 => i1 = i ∧ (wrap (x - t) ≤ j1 ∧ j1 ≤ wrap (x + t)) ∧
      Point.In ⟨j1, i1⟩ b = true)
    (fun i mask => forLeM (wrap (x - t)) (wrap (x + t))
      (fun j mask => some (markPixel b j i mask)) mask)
    (rangeLt (wrap (y - t)) (wrap (y + t) + 1))
    (fun i _ m2 hm2 => markRow_upd b _ _ i m2 hm2 hx) m hm
  refine ⟨m1, he, hu.congr (fun j1 i1 => ?_)⟩
  unfold InSquare
  constructor
  · rintro ⟨v, hv, rfl, h2, h3⟩
    have := (mem_rangeLt _ _ _).1 hv
    exact ⟨⟨this.1, by omega⟩, h2, h3⟩
  · rintro ⟨hi, h2, h3⟩
    exact ⟨i1, (mem_rangeLt _ _ _).2 ⟨hi.1, by omega⟩, rfl, h2, h3⟩

/-- The general description of `createMask`: when no dilation loop of a detected pixel has
the largest `int` as its upper limit, `createMask` returns, and its mask is the all-zero
image with the squares of the detected pixels set to 255. -/
theorem createMask_upd (img : Gray) (th t : Int)
    (hend : ∀ x y, Interior img.Rect x y → edgeTest img th x y = true →
      wrap (y + t) ≠ intMax ∧ wrap (x + t) ≠ intMax) :
    ∃ m, createMask img th t = some m ∧
      Upd (fun _ => 255)
        (fun j i => ∃ x y, Interior img.Rect x y ∧ edgeTest img th x y = true ∧
          InSquare img.Rect t x y j i)
        (NewGray img.Rect img.valid) m := by
  unfold createMask forLtM
  simp only [Gray.Bounds]
  obtain ⟨m, he, hu⟩ := marks_foldlM img.Rect
    (fun y j i => ∃ x, Interior img.Rect x y ∧ edgeTest img th x y = true ∧
      InSquare img.Rect t x y j i)
    (fun y mask => (rangeLt (img.Rect.Min.X + 1) (img.Rect.Max.X - 1)).foldlM
      (fun mask x => if edgeTest img th x y = true then markSquare img.Rect t x y mask
        else some mask) mask)
    (rangeLt (img.Rect.Min.Y + 1) (img.Rect.Max.Y - 1))
    (fun y hy m2 hm2 => by
      have hy2 := (mem_rangeLt _ _ _).1 hy
      obtain ⟨m3, he3, hu3⟩ := marks_foldlM img.Rect
        (fun x j i => Interior img.Rect x y ∧ edgeTest img th x y = true ∧
          InSquare img.Rect t x y j i)
        (fun x mask => if edgeTest img th x y = true then markSquare img.Rect t x y mask
          else some mask)
        (rangeLt (img.Rect.Min.X + 1) (img.Rect.Max.X - 1))
        (fun x hx m4 hm4 => by
          have hx2 := (mem_rangeLt _ _ _).1 hx
          have hint : Interior img.Rect x y := ⟨hx2.1, hx2.2, hy2.1, hy2.2⟩
          by_cases hedge : edgeTest img th x y = true
          · obtain ⟨m5, he5, hu5⟩ := markSquare_upd img.Rect t x y m4 hm4
              (hend x y hint hedge).1 (hend x y hint hedge).2
            refine ⟨m5, ?_, hu5.congr (fun j i => ?_)⟩
            · simp only [hedge, if_true]
              exact he5
            · exact ⟨fun h => ⟨hint, hedge, h⟩, fun h => h.2.2⟩
          · refine ⟨m4, ?_, (Upd.refl_empty _ m4).congr (fun j i => ?_)⟩
            · simp only [hedge]
              rfl
            · exact ⟨fun h => h.elim, fun h => hedge h.2.1⟩) m2 hm2
      refine ⟨m3, he3, hu3.congr (fun j i => ?_)⟩
      constructor
      · rintro ⟨x, _, h⟩
        exact ⟨x, h⟩
      · rintro ⟨x, h⟩
        exact ⟨x, (mem_rangeLt _ _ _).2 ⟨h.1.1, h.1.2.1⟩, h⟩)
    (NewGray img.Rect img.valid) rfl
  refine ⟨m, he, hu.congr (fun j i => ?_)⟩
  constructor
  · rintro ⟨y, _, x, h⟩
    exact ⟨x, y, h⟩
  · rintro ⟨x, y, h⟩
    exact ⟨y, (mem_rangeLt _ _ _).2 ⟨h.1.2.2.1, h.1.2.2.2⟩, x, h⟩

theorem sqrtGo_spec (n : Nat) : ∀ fuel r, r * r ≤ n → n < (r + fuel + 1) * (r + fuel + 1) →
    sqrtGo n fuel r * sqrtGo n fuel r ≤ n ∧
      n < (sqrtGo n fuel r + 1) * (sqrtGo n fuel r + 1) := by
  intro fuel
  induction fuel with
  | zero =>
    intro r h1 h2
    exact ⟨h1, h2⟩
  | succ k ih =>
    intro r h1 h2
    unfold sqrtGo
    split
    · next h3 =>
      apply ih (r + 1) h3
      have : r + 1 + k + 1 = r + (k + 1) + 1 := by omega
      rw [this]
      exact h2
    · next h3 => exact ⟨h1, by omega⟩

/-- The search `isqrt` computes the integer square root. -/
theorem isqrt_eq_sqrt (n : Nat) : isqrt n = Nat.sqrt n := by
  have h := sqrtGo_spec n n 0 (Nat.zero_le _) (by nlinarith)
  exact Nat.eq_sqrt.2 h

theorem inSquare_iff (r : Rectangle) (t x y j i : Int) (hf : Fits r t)
    (hint : Interior r x y) :
    InSquare r t x y j i ↔ (Point.In ⟨j, i⟩ r = true ∧ |x - j| ≤ t ∧ |y - i| ≤ t) := by
  obtain ⟨f1, f2, f3, f4⟩ := hf
  obtain ⟨i1, i2, i3, i4⟩ := hint
  have a1 := neg_abs_le t
  have a2 := le_abs_self t
  simp only [intMin, intMax] at f1 f2 f3 f4
  have w1 : wrap (y - t) = y - t :=
    wrap_eq_self (by simp only [intMin]; omega) (by simp only [intMax]; omega)
  have w2 : wrap (y + t) = y + t :=
    wrap_eq_self (by simp only [intMin]; omega) (by simp only [intMax]; omega)
  have w3 : wrap (x - t) = x - t :=
    wrap_eq_self (by simp only [intMin]; omega) (by simp only [intMax]; omega)
  have w4 : wrap (x + t) = x + t :=
    wrap_eq_self (by simp only [intMin]; omega) (by simp only [intMax]; omega)
  unfold InSquare
  rw [w1, w2, w3, w4, abs_le, abs_le]
  constructor
  · rintro ⟨h1, h2, h3⟩
    exact ⟨h3, ⟨by omega, by omega⟩, ⟨by omega, by omega⟩⟩
  · rintro ⟨h3, h2, h1⟩
    exact ⟨⟨by omega, by omega⟩, ⟨by omega, by omega⟩, h3⟩

theorem fits_not_end (r : Rectangle) (t x y : Int) (hf : Fits r t) (hint : Interior r x y) :
    wrap (y + t) ≠ intMax ∧ wrap (x + t) ≠ intMax := by
  obtain ⟨f1, f2, f3, f4⟩ := hf
  obtain ⟨i1, i2, i3, i4⟩ := hint
  have a1 := neg_abs_le t
  have a2 := le_abs_self t
  simp only [intMin, intMax] at f1 f2 f3 f4
  have w2 : wrap (y + t) = y + t :=
    wrap_eq_self (by simp only [intMin]; omega) (by simp only [intMax]; omega)
  have w4 : wrap (x + t) = x + t :=
    wrap_eq_self (by simp only [intMin]; omega) (by simp only [intMax]; omega)
  rw [w2, w4]
  simp only [intMax]
  constructor <;> omega

/-- When the dilation arithmetic does not overflow, `createMask` returns the detected
pixels dilated by the thickness square, clipped to the image; every other pixel is 0. -/
theorem createMask_fits (img : Gray) (th t : Int) (hf : Fits img.Rect t) :
    ∃ m, createMask img th t = some m ∧ m.Rect = img.Rect ∧
      ∀ j i, (m.GrayAt j i = 255 ↔ Dilated img th t j i) ∧
        (¬ Dilated img th t j i → m.GrayAt j i = 0) := by
  obtain ⟨m, he, hu⟩ := createMask_upd img th t
    (fun x y hint _ => fits_not_end img.Rect t x y hf hint)
  have hu2 : Upd (fun _ => 255) (fun j i => Dilated img th t j i)
      (NewGray img.Rect img.valid) m := by
    refine hu.congr (fun j i => ?_)
    unfold Dilated
    constructor
    · rintro ⟨x, y, hint, hedge, hsq⟩
      have := (inSquare_iff img.Rect t x y j i hf hint).1 hsq
      exact ⟨this.1, x, y, hint, hedge, this.2⟩
    · rintro ⟨hin, x, y, hint, hedge, hd⟩
      exact ⟨x, y, hint, hedge, (inSquare_iff img.Rect t x y j i hf hint).2 ⟨hin, hd⟩⟩
  refine ⟨m, he, hu2.1, fun j i => ⟨⟨fun h => ?_, fun h => (hu2.2 j i).1 h⟩, fun h => ?_⟩⟩
  · by_contra hn
    rw [(hu2.2 j i).2 hn, GrayAt_NewGray] at h
    exact absurd h (by decide)
  · rw [(hu2.2 j i).2 h, GrayAt_NewGray]

theorem markPixel_binary (b : Rectangle) (j i : Int) (m : Gray) (hm : BinaryOn b m) :
    BinaryOn b (markPixel b j i m) := by
  have hu := markPixel_upd b j i m hm.1
  refine ⟨hu.1.trans hm.1, fun x y => ?_⟩
  by_cases h : x = j ∧ y = i ∧ Point.In ⟨x, y⟩ b = true
  · exact Or.inr ((hu.2 x y).1 h)
  · rw [(hu.2 x y).2 h]
    exact hm.2 x y

/-- Whatever `createMask` returns has the bounds of the input and only pixels 0 and 255. -/
theorem createMask_binary (img : Gray) (th t : Int) (m : Gray)
    (he : createMask img th t = some m) : BinaryOn img.Rect m := by
  unfold createMask forLtM at he
  simp only [Gray.Bounds] at he
  refine foldlM_inv (BinaryOn img.Rect) _ _ (fun y s s1 hs hb => ?_) _ m ?_ he
  · refine foldlM_inv (BinaryOn img.Rect) _ _ (fun x s2 s3 hs2 hb2 => ?_) s s1 hs hb
    simp only at hb2
    split at hb2
    · unfold markSquare at hb2
      refine forLeM_inv (BinaryOn img.Rect) _ _ _ (fun i s4 s5 hs4 hb4 => ?_) s2 s3 hs2 hb2
      refine forLeM_inv (BinaryOn img.Rect) _ _ _ (fun j s6 s7 hs6 hb6 => ?_) s4 s5 hs4 hb4
      simp only [Option.some.injEq] at hb6
      rw [← hb6]
      exact markPixel_binary img.Rect j i s6 hs6
    · simp only [Option.some.injEq] at hb2
      rw [← hb2]
      exact hs2
  · exact ⟨rfl, fun x y => Or.inl (GrayAt_NewGray _ _ x y)⟩

/-- On an image of uniform intensity `v` no scanned pixel passes the edge test, as long
as the threshold is non-negative and `v + threshold` does not overflow. -/
theorem edgeTest_uniform (img : Gray) (v : U8) (th x y : Int)
    (hu : ∀ a b, Point.In ⟨a, b⟩ img.Rect = true → img.GrayAt a b = v)
    (hint : Interior img.Rect x y) (h0 : 0 ≤ th) (h1 : th + (v.val : Int) ≤ intMax) :
    edgeTest img th x y = false := by
  obtain ⟨i1, i2, i3, i4⟩ := hint
  have hin : ∀ a b, (x - 1 ≤ a ∧ a ≤ x + 1) → (y - 1 ≤ b ∧ b ≤ y + 1) →
      img.intAt a b = (v.val : Int) := by
    intro a b ha hb
    unfold Gray.intAt
    rw [hu a b ((In_iff a b img.Rect).2 (by omega))]
  have hw : wrap ((v.val : Int) + th) = (v.val : Int) + th :=
    wrap_eq_self (by simp only [intMin]; omega) (by omega)
  have hg : gradient img x y = 0 := by
    unfold gradient
    rw [hin (x + 1) y (by omega) (by omega), hin (x - 1) y (by omega) (by omega),
      hin x (y + 1) (by omega) (by omega), hin x (y - 1) (by omega) (by omega)]
    simp [isqrt, sqrtGo]
  unfold edgeTest
  rw [hg, hin (x - 1) (y - 1) (by omega) (by omega), hin x (y - 1) (by omega) (by omega),
    hin (x + 1) (y - 1) (by omega) (by omega), hin (x - 1) y (by omega) (by omega),
    hin (x + 1) y (by omega) (by omega), hin (x - 1) (y + 1) (by omega) (by omega),
    hin x (y + 1) (by omega) (by omega), hin (x + 1) (y + 1) (by omega) (by omega), hw]
  simp
  omega

/-! ## The properties -/

/-- C1 (amended): for every grayscale image, every threshold and every thickness whose
dilation arithmetic stays inside the 64-bit `int` range (`Fits`), `createMask` returns a
mask with the bounds of the image in which a pixel `(j, i)` is 255 exactly when it lies
inside the bounds and some scanned pixel `(x, y)` passing the edge test has
`|x - j| ≤ thickness` and `|y - i| ≤ thickness`; every other pixel is 0. -/
theorem createMask_dilation (img : Gray) (threshold thickness : Int)
    (hfit : Fits img.Rect thickness) :
    ∃ m, createMask img threshold thickness = some m ∧ m.Rect = img.Rect ∧
      ∀ j i, (m.GrayAt j i = 255 ↔
          (Point.In ⟨j, i⟩ img.Rect = true ∧
            ∃ x y, Interior img.Rect x y ∧ edgeTest img threshold x y = true ∧
              |x - j| ≤ thickness ∧ |y - i| ≤ thickness)) ∧
        (m.GrayAt j i ≠ 255 → m.GrayAt j i = 0) := by
  obtain ⟨m, he, hr, hp⟩ := createMask_fits img threshold thickness hfit
  refine ⟨m, he, hr, fun j i => ⟨(hp j i).1, fun hne => ?_⟩⟩
  exact (hp j i).2 (fun hd => hne ((hp j i).1.2 hd))

/-- C1, witness: the step image with threshold 20 and thickness 1. -/
theorem createMask_dilation_witness :
    Fits stepImage.Rect 1 ∧
    ∃ m, createMask stepImage 20 1 = some m ∧ m.Rect = stepImage.Rect ∧
      ∀ j i, (m.GrayAt j i = 255 ↔
          (Point.In ⟨j, i⟩ stepImage.Rect = true ∧
            ∃ x y, Interior stepImage.Rect x y ∧ edgeTest stepImage 20 x y = true ∧
              |x - j| ≤ 1 ∧ |y - i| ≤ 1)) ∧
        (m.GrayAt j i ≠ 255 → m.GrayAt j i = 0) :=
  ⟨by decide, createMask_dilation stepImage 20 1 (by decide)⟩

set_option maxRecDepth 100000 in
/-- C1, counterexample: with thickness 9223372036854775807 the sums `y + thickness` and
`x + thickness` wrap around, the dilation loops are empty, and the centre pixel of the
step image stays 0 although it is inside the bounds, scanned, passes the edge test and
is at distance 0 from itself. -/
theorem createMask_dilation_overflow :
    ∃ m, createMask stepImage 20 9223372036854775807 = some m ∧
      ¬ (m.GrayAt 1 1 = 255 ↔
          (Point.In ⟨1, 1⟩ stepImage.Rect = true ∧
            ∃ x y, Interior stepImage.Rect x y ∧ edgeTest stepImage 20 x y = true ∧
              |x - 1| ≤ 9223372036854775807 ∧ |y - 1| ≤ 9223372036854775807)) := by
  have hrun : (createMask stepImage 20 9223372036854775807).map (fun m => m.GrayAt 1 1) =
      some 0 := by decide
  obtain ⟨m, he, h0⟩ := Option.map_eq_some'.mp hrun
  refine ⟨m, he, fun hiff => ?_⟩
  have h255 : m.GrayAt 1 1 = 255 :=
    hiff.2 ⟨by decide, 1, 1, by decide, by decide, by decide, by decide⟩
  rw [h0] at h255
  exact absurd h255 (by decide)

set_option maxRecDepth 100000 in
/-- C2, the failing input: on the image with intensities 200 right of the centre and 170
below it (0 elsewhere), the Euclidean magnitude at the centre is 262, above the default
threshold 20, but the 8-bit `gradient` is 262 - 256 = 6 and the centre pixel of the mask
(threshold 20, thickness 0) is 0. -/
theorem createMask_strong_edge_missed :
    Interior strongEdgeImage.Rect 1 1 ∧
    magnitude strongEdgeImage 1 1 = 262 ∧ ((262 : Nat) : Int) > 20 ∧
    gradient strongEdgeImage 1 1 = 6 ∧
    ∃ m, createMask strongEdgeImage 20 0 = some m ∧ m.GrayAt 1 1 = 0 := by
  have hrun : (createMask strongEdgeImage 20 0).map (fun m => m.GrayAt 1 1) = some 0 := by
    decide
  obtain ⟨m, he, h0⟩ := Option.map_eq_some'.mp hrun
  exact ⟨by decide, by decide, by decide, by decide, m, he, h0⟩

/-- C3 (amended): for every grayscale image, every threshold and every thickness at most
0 (in the range where the dilation arithmetic does not overflow, which includes the
default 0), `createMask` returns a mask whose border pixels (first or last row, first or
last column) are all 0. -/
theorem createMask_border_zero (img : Gray) (threshold thickness : Int)
    (hle : thickness ≤ 0) (hfit : Fits img.Rect thickness) :
    ∃ m, createMask img threshold thickness = some m ∧
      ∀ j i, Border img.Rect j i → m.GrayAt j i = 0 := by
  obtain ⟨m, he, _, hp⟩ := createMask_fits img threshold thickness hfit
  refine ⟨m, he, fun j i hb => (hp j i).2 ?_⟩
  rintro ⟨_, x, y, ⟨i1, i2, i3, i4⟩, _, hx, hy⟩
  have hx2 := abs_le.mp hx
  have hy2 := abs_le.mp hy
  unfold Border at hb
  omega

/-- C3, witness: the step image with threshold 20 and thickness 0. -/
theorem createMask_border_zero_witness :
    (0 : Int) ≤ 0 ∧ Fits stepImage.Rect 0 ∧
    ∃ m, createMask stepImage 20 0 = some m ∧
      ∀ j i, Border stepImage.Rect j i → m.GrayAt j i = 0 :=
  ⟨by decide, by decide, createMask_border_zero stepImage 20 0 (by decide) (by decide)⟩

set_option maxRecDepth 100000 in
/-- C3, counterexample: with thickness 1 the square around the detected centre pixel of
the step image reaches the corner `(0, 0)`, a border pixel, which becomes 255. -/
theorem createMask_border_marked :
    ∃ m, createMask stepImage 20 1 = some m ∧
      ¬ (∀ j i, Border stepImage.Rect j i → m.GrayAt j i = 0) := by
  have hrun : (createMask stepImage 20 1).map (fun m => m.GrayAt 0 0) = some 255 := by
    decide
  obtain ⟨m, he, h255⟩ := Option.map_eq_some'.mp hrun
  refine ⟨m, he, fun hall => ?_⟩
  have h0 : m.GrayAt 0 0 = 0 := hall 0 0 (Or.inl rfl)
  rw [h255] at h0
  exact absurd h0 (by decide)

/-- C4 (amended): for every image in which all pixels have the same intensity `v`, every
threshold with `0 ≤ threshold` and `threshold + v` within the `int` range, and every
thickness, `createMask` returns a mask whose pixels are all 0, border included. -/
theorem createMask_uniform (img : Gray) (v : U8) (threshold thickness : Int)
    (huni : ∀ x y, Point.In ⟨x, y⟩ img.Rect = true → img.GrayAt x y = v)
    (h0 : 0 ≤ threshold) (h1 : threshold + (v.val : Int) ≤ intMax) :
    ∃ m, createMask img threshold thickness = some m ∧ ∀ j i, m.GrayAt j i = 0 := by
  have hno : ∀ x y, Interior img.Rect x y → ¬ edgeTest img threshold x y = true := by
    intro x y hint
    rw [edgeTest_uniform img v threshold x y huni hint h0 h1]
    decide
  obtain ⟨m, he, hu⟩ := createMask_upd img threshold thickness
    (fun x y hint hedge => absurd hedge (hno x y hint))
  refine ⟨m, he, fun j i => ?_⟩
  rw [(hu.2 j i).2 ?_, GrayAt_NewGray]
  rintro ⟨x, y, hint, hedge, _⟩
  exact hno x y hint hedge

/-- C4, witness: the uniform image of intensity 1 with threshold 20 and thickness 3. -/
theorem createMask_uniform_witness :
    ∃ m, createMask uniformImage 20 3 = some m ∧ ∀ j i, m.GrayAt j i = 0 :=
  createMask_uniform uniformImage 1 20 3
    (fun x y h => by
      unfold Gray.GrayAt
      rw [if_pos h]
      rfl)
    (by decide) (by decide)

set_option maxRecDepth 100000 in
/-- C4, counterexample: on the uniform image of intensity 1 with threshold
9223372036854775807 (non-negative) the sum `1 + threshold` wraps around to the smallest
`int`, the gradient 0 exceeds it, and the centre pixel of the mask is 255. -/
theorem createMask_uniform_overflow :
    (∀ x y, Point.In ⟨x, y⟩ uniformImage.Rect = true → uniformImage.GrayAt x y = 1) ∧
    (0 : Int) ≤ 9223372036854775807 ∧
    ∃ m, createMask uniformImage 9223372036854775807 0 = some m ∧
      ¬ (∀ j i, m.GrayAt j i = 0) := by
  have hrun : (createMask uniformImage 9223372036854775807 0).map
      (fun m => m.GrayAt 1 1) = some 255 := by decide
  obtain ⟨m, he, h255⟩ := Option.map_eq_some'.mp hrun
  refine ⟨fun x y h => ?_, by decide, m, he, fun hall => ?_⟩
  · unfold Gray.GrayAt
    rw [if_pos h]
    rfl
  · have h0 : m.GrayAt 1 1 = 0 := hall 1 1
    rw [h255] at h0
    exact absurd h0 (by decide)

/-- C5 (amended): for every grayscale image, every threshold and all thickness values
`t1 ≤ t2` whose dilation arithmetic stays inside the 64-bit `int` range (`Fits`), both
runs of `createMask` return and every pixel that is 255 in the mask for `t1` is also 255
in the mask for `t2`. -/
theorem createMask_thickness_mono (img : Gray) (threshold t1 t2 : Int) (hle : t1 ≤ t2)
    (hfit1 : Fits img.Rect t1) (hfit2 : Fits img.Rect t2) :
    ∃ m1 m2, createMask img threshold t1 = some m1 ∧ createMask img threshold t2 = some m2 ∧
      ∀ j i, m1.GrayAt j i = 255 → m2.GrayAt j i = 255 := by
  obtain ⟨m1, he1, _, hp1⟩ := createMask_fits img threshold t1 hfit1
  obtain ⟨m2, he2, _, hp2⟩ := createMask_fits img threshold t2 hfit2
  refine ⟨m1, m2, he1, he2, fun j i h => (hp2 j i).1.2 ?_⟩
  obtain ⟨hin, x, y, hint, hedge, hx, hy⟩ := (hp1 j i).1.1 h
  exact ⟨hin, x, y, hint, hedge, hx.trans hle, hy.trans hle⟩

/-- C5, witness: the step image with threshold 20 and the thickness values 0 and 1. -/
theorem createMask_thickness_mono_witness :
    (0 : Int) ≤ 1 ∧ Fits stepImage.Rect 0 ∧ Fits stepImage.Rect 1 ∧
    ∃ m1 m2, createMask stepImage 20 0 = some m1 ∧ createMask stepImage 20 1 = some m2 ∧
      ∀ j i, m1.GrayAt j i = 255 → m2.GrayAt j i = 255 :=
  ⟨by decide, by decide, by decide,
    createMask_thickness_mono stepImage 20 0 1 (by decide) (by decide) (by decide)⟩

set_option maxRecDepth 100000 in
/-- C5, counterexample: on the step image the centre pixel is 255 with thickness 0 and 0
with the larger thickness 9223372036854775807, whose loop limits wrap around. -/
theorem createMask_thickness_overflow :
    (0 : Int) ≤ 9223372036854775807 ∧
    ∃ m1 m2, createMask stepImage 20 0 = some m1 ∧
      createMask stepImage 20 9223372036854775807 = some m2 ∧
      ¬ (∀ j i, m1.GrayAt j i = 255 → m2.GrayAt j i = 255) := by
  have hrun1 : (createMask stepImage 20 0).map (fun m => m.GrayAt 1 1) = some 255 := by
    decide
  have hrun2 : (createMask stepImage 20 9223372036854775807).map
      (fun m => m.GrayAt 1 1) = some 0 := by decide
  obtain ⟨m1, he1, h255⟩ := Option.map_eq_some'.mp hrun1
  obtain ⟨m2, he2, h0⟩ := Option.map_eq_some'.mp hrun2
  refine ⟨by decide, m1, m2, he1, he2, fun hall => ?_⟩
  have h := hall 1 1 h255
  rw [h0] at h
  exact absurd h (by decide)

/-- C6: for every grayscale image, threshold and thickness, the mask returned by
`createMask` has the bounds of the input image and each of its pixels is 0 or 255; and
`createMask` does return whenever the dilation arithmetic stays inside the `int` range. -/
theorem createMask_bounds_binary (img : Gray) (threshold thickness : Int) :
    (∀ m, createMask img threshold thickness = some m →
      m.Bounds = img.Bounds ∧ ∀ x y, m.GrayAt x y = 0 ∨ m.GrayAt x y = 255) ∧
    (Fits img.Rect thickness → (createMask img threshold thickness).isSome = true) := by
  refine ⟨fun m he => createMask_binary img threshold thickness m he, fun hf => ?_⟩
  obtain ⟨m, he, _⟩ := createMask_fits img threshold thickness hf
  rw [he]
  rfl

/-- C6, witness: the step image with threshold 20 and thickness 1. -/
theorem createMask_bounds_binary_witness :
    Fits stepImage.Rect 1 ∧ (createMask stepImage 20 1).isSome = true ∧
    ∀ m, createMask stepImage 20 1 = some m →
      m.Bounds = stepImage.Bounds ∧ ∀ x y, m.GrayAt x y = 0 ∨ m.GrayAt x y = 255 :=
  ⟨by decide, (createMask_bounds_binary stepImage 20 1).2 (by decide),
    (createMask_bounds_binary stepImage 20 1).1⟩

/-- C7: `invertImage` is an involution: for every 8-bit grayscale image, applying it
twice leaves the bounds unchanged and gives back the original value at every pixel. -/
theorem invertImage_involution (img : Gray) :
    (invertImage (invertImage img)).Bounds = img.Bounds ∧
    ∀ x y, (invertImage (invertImage img)).GrayAt x y = img.GrayAt x y := by
  have h1 := invertImage_upd img
  have h2 := invertImage_upd (invertImage img)
  refine ⟨h2.1.trans h1.1, fun x y => ?_⟩
  by_cases hin : Point.In ⟨x, y⟩ img.Rect = true
  · have hin2 : Point.In ⟨x, y⟩ (invertImage img).Rect = true := by
      rw [h1.1]
      exact hin
    rw [(h2.2 x y).1 hin2, (h1.2 x y).1 hin]
    exact u8_sub_sub _
  · have hin2 : ¬ Point.In ⟨x, y⟩ (invertImage img).Rect = true := by
      rw [h1.1]
      exact hin
    rw [(h2.2 x y).2 hin2, (h1.2 x y).2 hin]

/-- C8: for every 8-bit grayscale image, `invertImage` leaves the bounds unchanged and
every pixel inside the bounds holds 255 minus its previous value afterwards; in
particular a pixel 0 becomes 255 and a pixel 255 becomes 0. -/
theorem invertImage_pointwise (img : Gray) (x y : Int)
    (hin : Point.In ⟨x, y⟩ img.Bounds = true) :
    (invertImage img).Bounds = img.Bounds ∧
    ((invertImage img).GrayAt x y).val = 255 - (img.GrayAt x y).val ∧
    (img.GrayAt x y = 0 → (invertImage img).GrayAt x y = 255) ∧
    (img.GrayAt x y = 255 → (invertImage img).GrayAt x y = 0) := by
  have h1 := invertImage_upd img
  have hv : (invertImage img).GrayAt x y = 255 - img.GrayAt x y := (h1.2 x y).1 hin
  refine ⟨h1.1, ?_, fun h0 => ?_, fun h255 => ?_⟩
  · rw [hv]
    exact u8_sub_val _
  · rw [hv, h0]
    rfl
  · rw [hv, h255]
    rfl

/-- C8, witness: the pixel `(2, 1)` of the step image, 100 before and 155 after. -/
theorem invertImage_pointwise_witness :
    Point.In ⟨2, 1⟩ stepImage.Bounds = true ∧
    (invertImage stepImage).Bounds = stepImage.Bounds ∧
    ((invertImage stepImage).GrayAt 2 1).val = 255 - (stepImage.GrayAt 2 1).val ∧
    (stepImage.GrayAt 2 1 = 0 → (invertImage stepImage).GrayAt 2 1 = 255) ∧
    (stepImage.GrayAt 2 1 = 255 → (invertImage stepImage).GrayAt 2 1 = 0) :=
  ⟨by decide, invertImage_pointwise stepImage 2 1 (by decide)⟩

/-- C9: in the argument handling of `main`, whenever `os.Args` has fewer than 4 entries
(fewer than two arguments after the input path) and the pipeline runs, the threshold
used is 20 and the thickness used is 0, whatever the single extra argument is. -/
theorem mainArgs_defaults (osArgs : List String) (glob : String → Option (List String))
    (s : Settings) (hlen : osArgs.length < 4)
    (hrun : mainArgs osArgs glob = Outcome.run s) :
    s.threshold = 20 ∧ s.thickness = 0 := by
  unfold mainArgs at hrun
  split at hrun
  · cases hrun
  · split at hrun
    · cases hrun
    · split at hrun
      · cases hrun
      · have h4 : ¬ osArgs.length ≥ 4 := by omega
        simp only [if_neg h4, Outcome.run.injEq] at hrun
        rw [← hrun]
        exact ⟨rfl, rfl⟩

/-- C9, witness: `chalkboard a.png 7` runs with threshold 20, not 7, and thickness 0. -/
theorem mainArgs_defaults_witness :
    mainArgs ["chalkboard", "a.png", "7"] globSelf = Outcome.run ⟨"a.png", 20, 0, false⟩ ∧
    (⟨"a.png", 20, 0, false⟩ : Settings).threshold = 20 ∧
    (⟨"a.png", 20, 0, false⟩ : Settings).thickness = 0 :=
  ⟨by decide,
    mainArgs_defaults ["chalkboard", "a.png", "7"] globSelf ⟨"a.png", 20, 0, false⟩
      (by decide) (by decide)⟩

/-- C10: in the argument handling of `main`, when `os.Args` has at least 4 entries (at
least two arguments after the input path) and the pipeline runs, the threshold is the
value `strconv.Atoi` reads from the first of them and 50 when it reports an error, and
the thickness is the value read from the second and 1 when it reports an error; each
fallback depends on its own argument only. -/
theorem mainArgs_parsed (osArgs : List String) (glob : String → Option (List String))
    (s : Settings) (hlen : 4 ≤ osArgs.length)
    (hrun : mainArgs osArgs glob = Outcome.run s) :
    (∀ v, Atoi (osArgs.getD 2 "") = some v → s.threshold = v) ∧
    (Atoi (osArgs.getD 2 "") = none → s.threshold = 50) ∧
    (∀ v, Atoi (osArgs.getD 3 "") = some v → s.thickness = v) ∧
    (Atoi (osArgs.getD 3 "") = none → s.thickness = 1) := by
  unfold mainArgs at hrun
  split at hrun
  · cases hrun
  · split at hrun
    · cases hrun
    · split at hrun
      · cases hrun
      · have h4 : osArgs.length ≥ 4 := hlen
        simp only [if_pos h4, Outcome.run.injEq] at hrun
        rw [← hrun]
        refine ⟨fun v hv => ?_, fun hn => ?_, fun v hv => ?_, fun hn => ?_⟩
        · simp only [hv]
        · simp only [hn]
        · simp only [hv]
        · simp only [hn]

/-- C10, witness: `chalkboard a.png 7 x` runs with threshold 7 and the fallback
thickness 1; `chalkboard a.png x 3` runs with the fallback threshold 50 and thickness 3. -/
theorem mainArgs_parsed_witness :
    (⟨"a.png", 7, 1, false⟩ : Settings).threshold = 7 ∧
    (⟨"a.png", 7, 1, false⟩ : Settings).thickness = 1 ∧
    (⟨"a.png", 50, 3, false⟩ : Settings).threshold = 50 ∧
    (⟨"a.png", 50, 3, false⟩ : Settings).thickness = 3 :=
  have h1 := mainArgs_parsed ["chalkboard", "a.png", "7", "x"] globSelf
    ⟨"a.png", 7, 1, false⟩ (by decide) (by decide)
  have h2 := mainArgs_parsed ["chalkboard", "a.png", "x", "3"] globSelf
    ⟨"a.png", 50, 3, false⟩ (by decide) (by decide)
  ⟨h1.1 7 (by decide), h1.2.2.2 (by decide), h2.2.1 (by decide), h2.2.2.1 3 (by decide)⟩

/-! ## `createMask`: what a returned mask is, for every threshold and thickness -/

/-- A loop that ends, each of whose ending steps sets a pixel set to 255, has set their
union to 255. -/
theorem marks_foldlM_ret {α : Type} (r : Rectangle) (S : α → Int → Int → Prop)
    (body : α → Gray → Option Gray) (l : List α)
    (h : ∀ v ∈ l, ∀ m m1, m.Rect = r → body v m = some m1 → Upd (fun _ => 255) (S v) m m1) :
    ∀ m m2, m.Rect = r → l.foldlM (fun s v => body v s) m = some m2 →
      Upd (fun _ => 255) (fun j i => ∃ v ∈ l, S v j i) m m2 := by
  induction l with
  | nil =>
    intro m m2 _ he
    simp only [List.foldlM_nil] at he
    cases he
    exact (Upd.refl_empty _ m).congr (by simp)
  | cons a l ih =>
    intro m m2 hm he
    rw [List.foldlM_cons] at he
    cases hb : body a m with
    | none => simp [hb] at he
    | some m1 =>
      rw [hb] at he
      have h1 := h a (List.mem_cons_self a l) m m1 hm hb
      have h2 := ih (fun v hv => h v (List.mem_cons_of_mem a hv)) m1 m2 (h1.1.trans hm) he
      refine ⟨h2.1.trans h1.1, fun j i => ⟨?_, ?_⟩⟩
      · rintro ⟨v, hv, hS⟩
        by_cases hl : ∃ w ∈ l, S w j i
        · exact (h2.2 j i).1 hl
        · rcases List.mem_cons.mp hv with rfl | hv
          · rw [(h2.2 j i).2 hl]
            exact (h1.2 j i).1 hS
          · exact absurd ⟨v, hv, hS⟩ hl
      · intro hno
        have hna : ¬ S a j i := fun hS => hno ⟨a, List.mem_cons_self a l, hS⟩
        have hnl : ¬ ∃ w ∈ l, S w j i := by
          rintro ⟨w, hw, hSw⟩
          exact hno ⟨w, List.mem_cons_of_mem a hw, hSw⟩
        rw [(h2.2 j i).2 hnl, (h1.2 j i).2 hna]

theorem forLeM_some_ne {σ : Type} (lo hi : Int) (body : Int → σ → Option σ) (s s1 : σ)
    (he : forLeM lo hi body s = some s1) : hi ≠ intMax := by
  intro h
  simp [forLeM, h] at he

/-- Whenever the dilation loops around `(x, y)` end, they have set to 255 exactly the
pixels of `InSquare`. -/
theorem markSquare_ret (b : Rectangle) (t x y : Int) (m m1 : Gray) (hm : m.Rect = b)
    (he : markSquare b t x y m = some m1) :
    Upd (fun _ => 255) (fun j i => InSquare b t x y j i) m m1 := by
  unfold markSquare at he
  have hy := forLeM_some_ne _ _ _ _ _ he
  rw [forLeM_eq _ _ _ _ hy] at he
  have hu := marks_foldlM_ret b
    (fun i j1 i1 => i1 = i ∧ (wrap (x - t) ≤ j1 ∧ j1 ≤ wrap (x + t)) ∧
      Point.In ⟨j1, i1⟩ b = true)
    (fun i mask => forLeM (wrap (x - t)) (wrap (x + t))
      (fun j mask => some (markPixel b j i mask)) mask)
    (rangeLt (wrap (y - t)) (wrap (y + t) + 1))
    (fun i _ m2 m3 hm2 he2 => by
      simp only at he2
      have hx := forLeM_some_ne _ _ _ _ _ he2
      obtain ⟨m4, he4, hu4⟩ := markRow_upd b (wrap (x - t)) (wrap (x + t)) i m2 hm2 hx
      rw [he4] at he2
      cases he2
      exact hu4) m m1 hm he
  refine hu.congr (fun j1 i1 => ?_)
  unfold InSquare
  constructor
  · rintro ⟨v, hv, rfl, h2, h3⟩
    have := (mem_rangeLt _ _ _).1 hv
    exact ⟨⟨this.1, by omega⟩, h2, h3⟩
  · rintro ⟨hi, h2, h3⟩
    exact ⟨i1, (mem_rangeLt _ _ _).2 ⟨hi.1, by omega⟩, rfl, h2, h3⟩

/-- Whenever `createMask` returns, its mask is the all-zero image with the squares (with
the loop limits as the machine computes them) of the detected pixels set to 255. -/
theorem createMask_ret (img : Gray) (th t : Int) (m : Gray)
    (he : createMask img th t = some m) :
    Upd (fun _ => 255)
      (fun j i => ∃ x y, Interior img.Rect x y ∧ edgeTest img th x y = true ∧
        InSquare img.Rect t x y j i)
      (NewGray img.Rect img.valid) m := by
  unfold createMask forLtM at he
  simp only [Gray.Bounds] at he
  have hu := marks_foldlM_ret img.Rect
    (fun y j i => ∃ x, Interior img.Rect x y ∧ edgeTest img th x y = true ∧
      InSquare img.Rect t x y j i)
    (fun y mask => (rangeLt (img.Rect.Min.X + 1) (img.Rect.Max.X - 1)).foldlM
      (fun mask x => if edgeTest img th x y = true then markSquare img.Rect t x y mask
        else some mask) mask)
    (rangeLt (img.Rect.Min.Y + 1) (img.Rect.Max.Y - 1))
    (fun y hy m2 m3 hm2 he2 => by
      have hy2 := (mem_rangeLt _ _ _).1 hy
      have hu3 := marks_foldlM_ret img.Rect
        (fun x j i => Interior img.Rect x y ∧ edgeTest img th x y = true ∧
          InSquare img.Rect t x y j i)
        (fun x mask => if edgeTest img th x y = true then markSquare img.Rect t x y mask
          else some mask)
        (rangeLt (img.Rect.Min.X + 1) (img.Rect.Max.X - 1))
        (fun x hx m4 m5 hm4 he4 => by
          have hx2 := (mem_rangeLt _ _ _).1 hx
          have hint : Interior img.Rect x y := ⟨hx2.1, hx2.2, hy2.1, hy2.2⟩
          by_cases hedge : edgeTest img th x y = true
          · simp only [hedge, if_true] at he4
            refine (markSquare_ret img.Rect t x y m4 m5 hm4 he4).congr (fun j i => ?_)
            exact ⟨fun h => ⟨hint, hedge, h⟩, fun h => h.2.2⟩
          · simp only [hedge] at he4
            cases he4
            refine (Upd.refl_empty _ m4).congr (fun j i => ?_)
            exact ⟨fun h => h.elim, fun h => hedge h.2.1⟩) m2 m3 hm2 he2
      refine hu3.congr (fun j i => ?_)
      constructor
      · rintro ⟨x, _, h⟩
        exact ⟨x, h⟩
      · rintro ⟨x, h⟩
        exact ⟨x, (mem_rangeLt _ _ _).2 ⟨h.1.1, h.1.2.1⟩, h⟩)
    (NewGray img.Rect img.valid) m rfl he
  refine hu.congr (fun j i => ?_)
  constructor
  · rintro ⟨y, _, x, h⟩
    exact ⟨x, y, h⟩
  · rintro ⟨x, y, h⟩
    exact ⟨y, (mem_rangeLt _ _ _).2 ⟨h.1.2.2.1, h.1.2.2.2⟩, x, h⟩

/-! ## The edge test: lemmas -/

theorem intAt_bounds (img : Gray) (a b : Int) : 0 ≤ img.intAt a b ∧ img.intAt a b ≤ 255 := by
  unfold Gray.intAt
  have := (img.GrayAt a b).isLt
  omega

theorem gradient_le (img : Gray) (x y : Int) : gradient img x y ≤ 255 := by
  unfold gradient
  simp only
  omega

/-- With a negative threshold every pixel passes the edge test. -/
theorem edgeTest_neg (img : Gray) (th x y : Int) (hneg : th < 0) :
    edgeTest img th x y = true := by
  have hg : decide ((gradient img x y : Int) > th) = true := by
    simp only [decide_eq_true_eq]
    omega
  unfold edgeTest
  simp only [hg, Bool.true_or]

/-- When `threshold + 255` does not overflow the eight neighbour comparisons add nothing
to the edge test. -/
theorem edgeTest_eq_threshold (img : Gray) (th x y : Int) (hov : th + 255 ≤ intMax) :
    edgeTest img th x y = decide ((gradient img x y : Int) > th) := by
  by_cases hneg : th < 0
  · rw [edgeTest_neg img th x y hneg]
    symm
    simp only [decide_eq_true_eq]
    omega
  · have hw : ∀ a b, wrap (img.intAt a b + th) = img.intAt a b + th := by
      intro a b
      have hb := intAt_bounds img a b
      exact wrap_eq_self (by simp only [intMin]; omega) (by omega)
    have b1 := intAt_bounds img (x - 1) (y - 1)
    have b2 := intAt_bounds img x (y - 1)
    have b3 := intAt_bounds img (x + 1) (y - 1)
    have b4 := intAt_bounds img (x - 1) y
    have b5 := intAt_bounds img (x + 1) y
    have b6 := intAt_bounds img (x - 1) (y + 1)
    have b7 := intAt_bounds img x (y + 1)
    have b8 := intAt_bounds img (x + 1) (y + 1)
    unfold edgeTest
    simp only [hw]
    by_cases hg : (gradient img x y : Int) > th
    · simp only [hg, decide_True, Bool.true_or]
    · simp only [hg, decide_False, Bool.false_or, Bool.or_eq_false_iff,
        decide_eq_false_iff_not]
      omega

theorem gradient_eq (img : Gray) (x y : Int) :
    gradient img x y = isqrt (sumSquares img x y).toNat % 256 := rfl

/-- When the sum of squares is below 65536 the 8-bit gradient is the integer square root. -/
theorem gradient_small (img : Gray) (x y : Int) (hsmall : sumSquares img x y < 65536) :
    gradient img x y = Nat.sqrt (sumSquares img x y).toNat := by
  rw [gradient_eq, isqrt_eq_sqrt]
  apply Nat.mod_eq_of_lt
  have h1 := Nat.sqrt_le (sumSquares img x y).toNat
  have h2 : (sumSquares img x y).toNat < 65536 := by omega
  by_contra hge
  have h3 : 256 ≤ Nat.sqrt (sumSquares img x y).toNat := by omega
  have h4 := Nat.mul_le_mul h3 h3
  omega

theorem fits_zero (r : Rectangle) (h : r.Valid) : Fits r 0 := by
  obtain ⟨h1, h2, h3, h4, h5, h6⟩ := h
  unfold Fits
  simp only [abs_zero]
  simp only [intMin, intMax] at *
  omega

/-- With thickness 0 the dilation of the detected pixels is the detected pixels. -/
theorem dilated_zero (img : Gray) (th x y : Int) (hint : Interior img.Rect x y) :
    Dilated img th 0 x y ↔ edgeTest img th x y = true := by
  unfold Dilated
  constructor
  · rintro ⟨_, x1, y1, _, hedge, hx, hy⟩
    have hx2 := abs_le.mp hx
    have hy2 := abs_le.mp hy
    have ex : x1 = x := by omega
    have ey : y1 = y := by omega
    rw [← ex, ← ey]
    exact hedge
  · intro hedge
    obtain ⟨i1, i2, i3, i4⟩ := hint
    refine ⟨(In_iff x y img.Rect).2 (by omega), x, y, ⟨i1, i2, i3, i4⟩, hedge, ?_, ?_⟩ <;>
      simp

/-- When no scanned pixel passes the edge test, `createMask` returns the all-zero mask,
whatever the thickness. -/
theorem createMask_none_detected (img : Gray) (th t : Int)
    (hno : ∀ x y, Interior img.Rect x y → ¬ edgeTest img th x y = true) :
    ∃ m, createMask img th t = some m ∧ ∀ j i, m.GrayAt j i = 0 := by
  obtain ⟨m, he, hu⟩ := createMask_upd img th t
    (fun x y hint hedge => absurd hedge (hno x y hint))
  refine ⟨m, he, fun j i => ?_⟩
  rw [(hu.2 j i).2 ?_, GrayAt_NewGray]
  rintro ⟨x, y, hint, hedge, _⟩
  exact hno x y hint hedge

/-! ## The properties of the edge test and of extreme arguments -/

/-- C13 (amended): for every grayscale image, every thickness and every threshold for
which `threshold + 255` does not overflow the 64-bit `int`, `createMask` returns the
same mask as the variant whose edge test is only `gradient > threshold` (and fails to
return in the same cases): the eight neighbour comparisons are redundant there. -/
theorem createMask_neighbours_redundant (img : Gray) (threshold thickness : Int)
    (hov : threshold + 255 ≤ intMax) :
    createMask img threshold thickness = createMaskThresholdOnly img threshold thickness := by
  unfold createMask createMaskThresholdOnly
  simp only [edgeTest_eq_threshold img threshold _ _ hov]

set_option maxRecDepth 100000 in
/-- C13, witness: the step image with threshold 20 and thickness 1. -/
theorem createMask_neighbours_redundant_witness :
    (20 : Int) + 255 ≤ intMax ∧
    createMask stepImage 20 1 = createMaskThresholdOnly stepImage 20 1 :=
  ⟨by decide, createMask_neighbours_redundant stepImage 20 1 (by decide)⟩

set_option maxRecDepth 100000 in
/-- C13, counterexample: on the uniform image of intensity 1 with threshold
9223372036854775807 the neighbour comparison `0 > 1 + threshold` holds after the sum has
wrapped around, so `createMask` marks the centre pixel, while the variant with the test
`gradient > threshold` alone leaves it 0. -/
theorem createMask_neighbours_overflow :
    ∃ m1 m2, createMask uniformImage 9223372036854775807 0 = some m1 ∧
      createMaskThresholdOnly uniformImage 9223372036854775807 0 = some m2 ∧
      m1.GrayAt 1 1 = 255 ∧ m2.GrayAt 1 1 = 0 ∧
      createMask uniformImage 9223372036854775807 0 ≠
        createMaskThresholdOnly uniformImage 9223372036854775807 0 := by
  have hrun1 : (createMask uniformImage 9223372036854775807 0).map
      (fun m => m.GrayAt 1 1) = some 255 := by decide
  have hrun2 : (createMaskThresholdOnly uniformImage 9223372036854775807 0).map
      (fun m => m.GrayAt 1 1) = some 0 := by decide
  obtain ⟨m1, he1, h255⟩ := Option.map_eq_some'.mp hrun1
  obtain ⟨m2, he2, h0⟩ := Option.map_eq_some'.mp hrun2
  refine ⟨m1, m2, he1, he2, h255, h0, fun heq => ?_⟩
  rw [heq, hrun2] at hrun1
  exact absurd hrun1 (by decide)

/-- C14 (amended): for every grayscale image, every threshold for which
`threshold + 255` does not overflow the 64-bit `int`, and every interior pixel `(x, y)`
with `dx*dx + dy*dy < 65536`, `createMask` with thickness 0 returns a mask whose pixel
`(x, y)` is 255 if and only if the integer square root of `dx*dx + dy*dy` is strictly
greater than the threshold. -/
theorem createMask_small_gradient (img : Gray) (threshold x y : Int)
    (hint : Interior img.Rect x y) (hsmall : sumSquares img x y < 65536)
    (hov : threshold + 255 ≤ intMax) :
    ∃ m, createMask img threshold 0 = some m ∧
      (m.GrayAt x y = 255 ↔ (Nat.sqrt (sumSquares img x y).toNat : Int) > threshold) := by
  obtain ⟨m, he, _, hp⟩ := createMask_fits img threshold 0 (fits_zero img.Rect img.valid)
  refine ⟨m, he, ?_⟩
  rw [(hp x y).1, dilated_zero img threshold x y hint,
    edgeTest_eq_threshold img threshold x y hov, gradient_small img x y hsmall,
    decide_eq_true_eq]

set_option maxRecDepth 100000 in
/-- C14, witness: the centre of the step image (`dx = 100`, `dy = 0`) with threshold 20. -/
theorem createMask_small_gradient_witness :
    Interior stepImage.Rect 1 1 ∧ sumSquares stepImage 1 1 < 65536 ∧
    (20 : Int) + 255 ≤ intMax ∧
    ∃ m, createMask stepImage 20 0 = some m ∧
      (m.GrayAt 1 1 = 255 ↔ (Nat.sqrt (sumSquares stepImage 1 1).toNat : Int) > 20) :=
  ⟨by decide, by decide, by decide,
    createMask_small_gradient stepImage 20 1 1 (by decide) (by decide) (by decide)⟩

set_option maxRecDepth 100000 in
/-- C14, counterexample: at the centre of the uniform image of intensity 1 the sum of
squares is 0, whose square root 0 is not greater than the threshold
9223372036854775807, yet the mask pixel is 255 (the neighbour comparison has wrapped). -/
theorem createMask_small_gradient_overflow :
    Interior uniformImage.Rect 1 1 ∧ sumSquares uniformImage 1 1 < 65536 ∧
    ∃ m, createMask uniformImage 9223372036854775807 0 = some m ∧
      ¬ (m.GrayAt 1 1 = 255 ↔
        (Nat.sqrt (sumSquares uniformImage 1 1).toNat : Int) > 9223372036854775807) := by
  have hrun : (createMask uniformImage 9223372036854775807 0).map
      (fun m => m.GrayAt 1 1) = some 255 := by decide
  obtain ⟨m, he, h255⟩ := Option.map_eq_some'.mp hrun
  refine ⟨by decide, by decide, m, he, fun hiff => ?_⟩
  have hgt := hiff.1 h255
  have hss : sumSquares uniformImage 1 1 = 0 := by decide
  rw [hss] at hgt
  simp at hgt

/-- C15 (amended): for every grayscale image, every thickness and every threshold with
`255 ≤ threshold` for which `threshold + 255` does not overflow the 64-bit `int`,
`createMask` returns a mask whose pixels are all 0: the 8-bit gradient is at most 255. -/
theorem createMask_high_threshold (img : Gray) (threshold thickness : Int)
    (hge : 255 ≤ threshold) (hov : threshold + 255 ≤ intMax) :
    ∃ m, createMask img threshold thickness = some m ∧ ∀ j i, m.GrayAt j i = 0 := by
  apply createMask_none_detected
  intro x y _
  rw [edgeTest_eq_threshold img threshold x y hov]
  have hg := gradient_le img x y
  simp only [decide_eq_true_eq]
  omega

/-- C15, witness: the step image with threshold 255 and thickness 2. -/
theorem createMask_high_threshold_witness :
    (255 : Int) ≤ 255 ∧ (255 : Int) + 255 ≤ intMax ∧
    ∃ m, createMask stepImage 255 2 = some m ∧ ∀ j i, m.GrayAt j i = 0 :=
  ⟨by decide, by decide, createMask_high_threshold stepImage 255 2 (by decide) (by decide)⟩

set_option maxRecDepth 100000 in
/-- C15, counterexample: with threshold 9223372036854775807 (at least 255) the centre
pixel of the uniform image of intensity 1 is detected and the mask is not all 0. -/
theorem createMask_high_threshold_overflow :
    (255 : Int) ≤ 9223372036854775807 ∧
    ∃ m, createMask uniformImage 9223372036854775807 0 = some m ∧
      ¬ (∀ j i, m.GrayAt j i = 0) := by
  have hrun : (createMask uniformImage 9223372036854775807 0).map
      (fun m => m.GrayAt 1 1) = some 255 := by decide
  obtain ⟨m, he, h255⟩ := Option.map_eq_some'.mp hrun
  refine ⟨by decide, m, he, fun hall => ?_⟩
  have h0 := hall 1 1
  rw [h255] at h0
  exact absurd h0 (by decide)

/-- C16 (amended): for every grayscale image, every negative threshold and every
thickness at least 0 whose dilation arithmetic stays inside the 64-bit `int` range
(`Fits`), `createMask` returns a mask in which every interior pixel is 255, a
uniform-intensity image included. -/
theorem createMask_negative_threshold (img : Gray) (threshold thickness : Int)
    (hneg : threshold < 0) (h0 : 0 ≤ thickness) (hfit : Fits img.Rect thickness) :
    ∃ m, createMask img threshold thickness = some m ∧
      ∀ x y, Interior img.Rect x y → m.GrayAt x y = 255 := by
  obtain ⟨m, he, _, hp⟩ := createMask_fits img threshold thickness hfit
  refine ⟨m, he, fun x y hint => (hp x y).1.2 ?_⟩
  have hin : Point.In ⟨x, y⟩ img.Rect = true := by
    obtain ⟨i1, i2, i3, i4⟩ := hint
    exact (In_iff x y img.Rect).2 (by omega)
  refine ⟨hin, x, y, hint, edgeTest_neg img threshold x y hneg, ?_, ?_⟩ <;>
    simpa using h0

/-- C16, witness: the uniform image of intensity 1 with threshold -1 and thickness 0. -/
theorem createMask_negative_threshold_witness :
    (-1 : Int) < 0 ∧ (0 : Int) ≤ 0 ∧ Fits uniformImage.Rect 0 ∧
    ∃ m, createMask uniformImage (-1) 0 = some m ∧
      ∀ x y, Interior uniformImage.Rect x y → m.GrayAt x y = 255 :=
  ⟨by decide, by decide, by decide,
    createMask_negative_threshold uniformImage (-1) 0 (by decide) (by decide) (by decide)⟩

set_option maxRecDepth 100000 in
/-- C16, counterexample: with threshold -1 and thickness 9223372036854775807 (at least 0)
the loop limits wrap around, the dilation loops are empty and the interior pixel
`(1, 1)` of the step image stays 0. -/
theorem createMask_negative_threshold_overflow :
    (-1 : Int) < 0 ∧ (0 : Int) ≤ 9223372036854775807 ∧
    ∃ m, createMask stepImage (-1) 9223372036854775807 = some m ∧
      ¬ (∀ x y, Interior stepImage.Rect x y → m.GrayAt x y = 255) := by
  have hrun : (createMask stepImage (-1) 9223372036854775807).map
      (fun m => m.GrayAt 1 1) = some 0 := by decide
  obtain ⟨m, he, h0⟩ := Option.map_eq_some'.mp hrun
  refine ⟨by decide, by decide, m, he, fun hall => ?_⟩
  have h255 := hall 1 1 (by decide)
  rw [h0] at h255
  exact absurd h255 (by decide)

/-- On any image, a negative thickness whose dilation arithmetic stays inside the 64-bit
`int` range (`Fits`) leaves the mask all 0: the dilation loops are empty. -/
theorem createMask_fits_negative (img : Gray) (th t : Int) (hneg : t < 0)
    (hfit : Fits img.Rect t) :
    ∃ m, createMask img th t = some m ∧ ∀ j i, m.GrayAt j i = 0 := by
  obtain ⟨m, he, _, hp⟩ := createMask_fits img th t hfit
  refine ⟨m, he, fun j i => (hp j i).2 ?_⟩
  rintro ⟨_, x, y, _, _, hx, _⟩
  have := abs_nonneg (x - j)
  omega

/-- C17: for every grayscale image that `main` can pass to `createMask` (line 86 builds it
with the bounds of the decoded image, whose corner is `(0, 0)`: non-negative coordinates,
not above 2^62), every threshold and every negative thickness of the `int` range,
`createMask` returns a mask whose pixels are all 0: no dilation loop reaches a pixel of
the image, and even the detected pixel itself is not marked. -/
theorem createMask_negative_thickness (img : Gray) (threshold thickness : Int)
    (hneg : thickness < 0) (hmin : intMin ≤ thickness) (hdec : Decoded img.Rect) :
    ∃ m, createMask img threshold thickness = some m ∧ ∀ j i, m.GrayAt j i = 0 := by
  obtain ⟨d1, d2, d3, d4⟩ := hdec
  simp only [intMin] at hmin
  obtain ⟨m, he, hu⟩ := createMask_upd img threshold thickness
    (fun x y hint _ => by
      obtain ⟨i1, i2, i3, i4⟩ := hint
      unfold wrap
      simp only [intMax]
      constructor <;> omega)
  refine ⟨m, he, fun j i => ?_⟩
  rw [(hu.2 j i).2 ?_, GrayAt_NewGray]
  rintro ⟨x, y, ⟨i1, i2, i3, i4⟩, _, ⟨hi1, hi2⟩, _, hin⟩
  have hb := (In_iff j i img.Rect).1 hin
  unfold wrap at hi1 hi2
  omega

/-- C17, witness: the step image, whose centre pixel is detected at threshold 20, with the
thickness values -1 and -9223372036854775808 (the smallest `int`). -/
theorem createMask_negative_thickness_witness :
    (-1 : Int) < 0 ∧ intMin ≤ -1 ∧ (-9223372036854775808 : Int) < 0 ∧
    intMin ≤ -9223372036854775808 ∧ Decoded stepImage.Rect ∧
    edgeTest stepImage 20 1 1 = true ∧
    (∃ m, createMask stepImage 20 (-1) = some m ∧ ∀ j i, m.GrayAt j i = 0) ∧
    (∃ m, createMask stepImage 20 (-9223372036854775808) = some m ∧
      ∀ j i, m.GrayAt j i = 0) :=
  ⟨by decide, by decide, by decide, by decide, by decide, by decide,
    createMask_negative_thickness stepImage 20 (-1) (by decide) (by decide) (by decide),
    createMask_negative_thickness stepImage 20 (-9223372036854775808) (by decide)
      (by decide) (by decide)⟩

set_option maxRecDepth 100000 in
/-- Outside the images `main` builds: on the 3 x 3 image with corner `(-2, -2)`, with
threshold -1 and thickness -9223372036854775808, the scanned pixel `(-1, -1)` is detected
and the loop limit `-1 + thickness` wraps around to the largest `int`, so the dilation
loop never ends.  The coordinate bounds of `Decoded` exclude such images. -/
theorem createMask_shifted_no_return :
    (-9223372036854775808 : Int) < 0 ∧
    wrap (-1 + -9223372036854775808) = intMax ∧
    (createMask shiftedImage (-1) (-9223372036854775808)).isSome = false ∧
    ¬ ∃ m, createMask shiftedImage (-1) (-9223372036854775808) = some m ∧
      ∀ j i, m.GrayAt j i = 0 := by
  have hrun : (createMask shiftedImage (-1) (-9223372036854775808)).isSome = false := by
    decide
  refine ⟨by decide, by decide, hrun, ?_⟩
  rintro ⟨m, he, _⟩
  rw [he] at hrun
  cases hrun

/-- C18 (amended): for every grayscale image, every thickness and all thresholds
`t1 ≤ t2` for which `t2 + 255` does not overflow the 64-bit `int`, every pixel that is
255 in a mask returned by `createMask` for `t2` is also 255 in a mask it returns for
`t1`; and both masks are returned whenever the dilation arithmetic stays inside the
`int` range. -/
theorem createMask_threshold_antitone (img : Gray) (thickness t1 t2 : Int)
    (hle : t1 ≤ t2) (hov : t2 + 255 ≤ intMax) :
    (∀ m1 m2, createMask img t1 thickness = some m1 →
      createMask img t2 thickness = some m2 →
      ∀ j i, m2.GrayAt j i = 255 → m1.GrayAt j i = 255) ∧
    (Fits img.Rect thickness →
      (createMask img t1 thickness).isSome = true ∧
      (createMask img t2 thickness).isSome = true) := by
  constructor
  · intro m1 m2 he1 he2 j i h255
    have hu1 := createMask_ret img t1 thickness m1 he1
    have hu2 := createMask_ret img t2 thickness m2 he2
    apply (hu1.2 j i).1
    by_contra hno
    have hS2 : ∃ x y, Interior img.Rect x y ∧ edgeTest img t2 x y = true ∧
        InSquare img.Rect thickness x y j i := by
      by_contra hn2
      rw [(hu2.2 j i).2 hn2, GrayAt_NewGray] at h255
      exact absurd h255 (by decide)
    obtain ⟨x, y, hint, hedge, hsq⟩ := hS2
    apply hno
    refine ⟨x, y, hint, ?_, hsq⟩
    rw [edgeTest_eq_threshold img t2 x y hov, decide_eq_true_eq] at hedge
    rw [edgeTest_eq_threshold img t1 x y (by omega), decide_eq_true_eq]
    omega
  · intro hfit
    obtain ⟨m1, he1, _⟩ := createMask_fits img t1 thickness hfit
    obtain ⟨m2, he2, _⟩ := createMask_fits img t2 thickness hfit
    rw [he1, he2]
    exact ⟨rfl, rfl⟩

set_option maxRecDepth 100000 in
/-- C18, witness: the step image with thickness 1 and the thresholds 20 and 150. -/
theorem createMask_threshold_antitone_witness :
    (20 : Int) ≤ 150 ∧ (150 : Int) + 255 ≤ intMax ∧ Fits stepImage.Rect 1 ∧
    (createMask stepImage 20 1).isSome = true ∧
    (createMask stepImage 150 1).isSome = true ∧
    ∀ m1 m2, createMask stepImage 20 1 = some m1 → createMask stepImage 150 1 = some m2 →
      ∀ j i, m2.GrayAt j i = 255 → m1.GrayAt j i = 255 :=
  ⟨by decide, by decide, by decide,
    ((createMask_threshold_antitone stepImage 1 20 150 (by decide) (by decide)).2
      (by decide)).1,
    ((createMask_threshold_antitone stepImage 1 20 150 (by decide) (by decide)).2
      (by decide)).2,
    (createMask_threshold_antitone stepImage 1 20 150 (by decide) (by decide)).1⟩

set_option maxRecDepth 100000 in
/-- C18, counterexample: on the uniform image of intensity 1 with thickness 0, the centre
pixel is 255 for the threshold 9223372036854775807 (the neighbour comparison wraps) and
0 for the smaller threshold 0. -/
theorem createMask_threshold_overflow :
    (0 : Int) ≤ 9223372036854775807 ∧
    ∃ m1 m2, createMask uniformImage 0 0 = some m1 ∧
      createMask uniformImage 9223372036854775807 0 = some m2 ∧
      ¬ (∀ j i, m2.GrayAt j i = 255 → m1.GrayAt j i = 255) := by
  have hrun1 : (createMask uniformImage 0 0).map (fun m => m.GrayAt 1 1) = some 0 := by
    decide
  have hrun2 : (createMask uniformImage 9223372036854775807 0).map
      (fun m => m.GrayAt 1 1) = some 255 := by decide
  obtain ⟨m1, he1, h0⟩ := Option.map_eq_some'.mp hrun1
  obtain ⟨m2, he2, h255⟩ := Option.map_eq_some'.mp hrun2
  refine ⟨by decide, m1, m2, he1, he2, fun hall => ?_⟩
  have h := hall 1 1 h255
  rw [h0] at h
  exact absurd h (by decide)

/-! ## Decimal numerals: lemmas -/

theorem digitChar_isDigit (d : Nat) (h : d < 10) : (Nat.digitChar d).isDigit = true := by
  interval_cases d <;> rfl

theorem digitChar_value (d : Nat) (h : d < 10) : (Nat.digitChar d).toNat - 48 = d := by
  interval_cases d <;> rfl

theorem digit_ne_sign (c : Char) (h : c.isDigit = true) : c ≠ '-' ∧ c ≠ '+' := by
  constructor
  · rintro rfl
    exact absurd h (by decide)
  · rintro rfl
    exact absurd h (by decide)

theorem decimalGo_append : ∀ (fuel n : Nat) (acc : List Char),
    decimalGo fuel n acc = decimalGo fuel n [] ++ acc := by
  intro fuel
  induction fuel with
  | zero =>
    intro n acc
    rfl
  | succ k ih =>
    intro n acc
    unfold decimalGo
    split
    · rfl
    · rw [ih (n / 10) (Nat.digitChar (n % 10) :: acc), ih (n / 10) [Nat.digitChar (n % 10)]]
      simp

theorem digitsValue_snoc (l : List Char) (c : Char) :
    digitsValue (l ++ [c]) = digitsValue l * 10 + ((c.toNat - 48 : Nat) : Int) := by
  unfold digitsValue
  rw [List.foldl_append]
  rfl

theorem decimalGo_value : ∀ (fuel n : Nat), n < fuel →
    digitsValue (decimalGo fuel n []) = (n : Int) := by
  intro fuel
  induction fuel with
  | zero =>
    intro n h
    omega
  | succ k ih =>
    intro n h
    unfold decimalGo
    split
    · next h10 =>
      have := digitsValue_snoc [] (Nat.digitChar n)
      simp only [List.nil_append] at this
      rw [this, digitChar_value n h10]
      simp [digitsValue]
    · next h10 =>
      rw [decimalGo_append, digitsValue_snoc, ih (n / 10) (by omega),
        digitChar_value (n % 10) (by omega)]
      omega

theorem decimalGo_digits : ∀ (fuel n : Nat) (acc : List Char),
    (∀ c ∈ acc, c.isDigit = true) → ∀ c ∈ decimalGo fuel n acc, c.isDigit = true := by
  intro fuel
  induction fuel with
  | zero =>
    intro n acc hacc
    exact hacc
  | succ k ih =>
    intro n acc hacc
    unfold decimalGo
    split
    · next h10 =>
      intro c hc
      rcases List.mem_cons.mp hc with rfl | hc
      · exact digitChar_isDigit n h10
      · exact hacc c hc
    · apply ih
      intro c hc
      rcases List.mem_cons.mp hc with rfl | hc
      · exact digitChar_isDigit (n % 10) (by omega)
      · exact hacc c hc

theorem decimalGo_ne_nil (fuel n : Nat) : decimalGo (fuel + 1) n [] ≠ [] := by
  unfold decimalGo
  split
  · simp
  · rw [decimalGo_append]
    simp

/-- On a non-empty string of digits `Atoi` returns the accumulated value when it fits. -/
theorem Atoi_digits (l : List Char) (hne : l ≠ []) (hd : ∀ c ∈ l, c.isDigit = true) :
    Atoi (String.mk l) =
      if intMin ≤ digitsValue l ∧ digitsValue l ≤ intMax then some (digitsValue l)
      else none := by
  cases l with
  | nil => exact absurd rfl hne
  | cons c r =>
    have hc := digit_ne_sign c (hd c (List.mem_cons_self c r))
    have hall : (c :: r).all Char.isDigit = true := by
      rw [List.all_eq_true]
      exact hd
    have hds : (match c :: r with
        | '-' :: r1 => r1
        | '+' :: r1 => r1
        | _ => c :: r) = c :: r := by
      split
      · next r1 heq =>
        injection heq with h1 h2
        exact absurd h1 hc.1
      · next r1 heq =>
        injection heq with h1 h2
        exact absurd h1 hc.2
      · rfl
    have hneg : decide ((c :: r).head? = some '-') = false := by
      simp only [List.head?_cons, Option.some.injEq, decide_eq_false_iff_not]
      exact hc.1
    unfold Atoi
    simp only [String.toList]
    rw [hds, hneg]
    simp only [List.isEmpty_cons, hall, if_true, Bool.false_eq_true, if_false]
    rfl

/-- On a minus sign followed by a non-empty string of digits `Atoi` returns the negated
value when it fits. -/
theorem Atoi_minus_digits (l : List Char) (hne : l ≠ []) (hd : ∀ c ∈ l, c.isDigit = true) :
    Atoi (String.mk ('-' :: l)) =
      if intMin ≤ -digitsValue l ∧ -digitsValue l ≤ intMax then some (-digitsValue l)
      else none := by
  have hall : l.all Char.isDigit = true := by
    rw [List.all_eq_true]
    exact hd
  have hemp : l.isEmpty = false := by
    cases l with
    | nil => exact absurd rfl hne
    | cons c r => rfl
  unfold Atoi
  simp only [String.toList, List.head?_cons, decide_True, hemp, hall, if_true,
    Bool.false_eq_true, if_false]
  rfl

/-- The numeral of an integer of the `int` range is read back by `Atoi` as that integer. -/
theorem Atoi_Itoa (t : Int) (hmin : intMin ≤ t) (hmax : t ≤ intMax) :
    Atoi (Itoa t) = some t := by
  have hne := decimalGo_ne_nil t.natAbs t.natAbs
  have hd := decimalGo_digits (t.natAbs + 1) t.natAbs [] (fun c hc => by cases hc)
  have hv := decimalGo_value (t.natAbs + 1) t.natAbs (by omega)
  unfold Itoa
  by_cases hneg : t < 0
  · rw [if_pos hneg, Atoi_minus_digits _ hne hd, hv]
    have ht : -((t.natAbs : Nat) : Int) = t := by omega
    rw [ht, if_pos ⟨hmin, hmax⟩]
  · rw [if_neg hneg, Atoi_digits _ hne hd, hv]
    have ht : ((t.natAbs : Nat) : Int) = t := by omega
    rw [ht, if_pos ⟨hmin, hmax⟩]

/-! ## The properties of the argument handling -/

/-- What the code does on `<path> t -invert`, for every matched input path and every
integer `t` of the `int` range: `-invert` stands where the thickness is read (line 60),
fails to parse, and the run has threshold `t`, inversion enabled and thickness 1. -/
theorem mainArgs_flag_as_thickness (prog path : String) (t : Int)
    (glob : String → Option (List String)) (file : String) (rest : List String)
    (hglob : glob path = some (file :: rest)) (hmin : intMin ≤ t) (hmax : t ≤ intMax) :
    mainArgs [prog, path, Itoa t, "-invert"] glob = Outcome.run ⟨file, t, 1, true⟩ := by
  have hflag : Atoi "-invert" = none := by decide
  unfold mainArgs
  simp [hglob, Atoi_Itoa t hmin hmax, hflag]

/-- C11, the failing input: `chalkboard a.png 7 -invert` (threshold given, thickness
omitted, flag present).  The code reads `-invert` as the thickness, `Atoi` reports an
error and the run has threshold 7, inversion enabled, but thickness 1 instead of the
default 0 that the claim and the usage line state; on the sibling input
`chalkboard a.png -invert` the thickness is the default 0. -/
theorem mainArgs_threshold_invert_thickness :
    Atoi "7" = some 7 ∧ Atoi "-invert" = none ∧
    mainArgs ["chalkboard", "a.png", "7", "-invert"] globSelf =
      Outcome.run ⟨"a.png", 7, 1, true⟩ ∧
    (⟨"a.png", 7, 1, true⟩ : Settings).thickness ≠ 0 ∧
    mainArgs ["chalkboard", "a.png", "-invert"] globSelf =
      Outcome.run ⟨"a.png", 20, 0, true⟩ := by
  decide

/-- C12: in the argument handling of `main`, whenever the pipeline runs, inversion is
enabled if and only if some argument after the program name is exactly `-invert`,
whatever its position; and the mask handed to `saveMask` is `invertImage` applied to the
result of `createMask` when inversion is enabled, and that result unchanged otherwise. -/
theorem mainArgs_invert (osArgs : List String) (glob : String → Option (List String))
    (s : Settings) (hrun : mainArgs osArgs glob = Outcome.run s) :
    (s.invert = true ↔ "-invert" ∈ osArgs.drop 1) ∧
    ∀ grayImage : Gray,
      (s.invert = true → mainMask s grayImage =
        (createMask grayImage s.threshold s.thickness).map invertImage) ∧
      (s.invert = false → mainMask s grayImage =
        createMask grayImage s.threshold s.thickness) := by
  constructor
  · unfold mainArgs at hrun
    split at hrun
    · cases hrun
    · split at hrun
      · cases hrun
      · split at hrun
        · cases hrun
        · simp only [Outcome.run.injEq] at hrun
          rw [← hrun]
          simp only [List.any_eq_true, beq_iff_eq]
          constructor
          · rintro ⟨a, ha, rfl⟩
            exact ha
          · intro h
            exact ⟨_, h, rfl⟩
  · intro grayImage
    unfold mainMask
    constructor
    · intro h
      simp only [h, if_true]
    · intro h
      simp only [h, Bool.false_eq_true, if_false]
      cases createMask grayImage s.threshold s.thickness <;> rfl

/-- C12, witness: `chalkboard -invert a.png` and `chalkboard a.png 5 2 -invert` both run
inverted; `chalkboard a.png 5 2` does not. -/
theorem mainArgs_invert_witness :
    mainArgs ["chalkboard", "-invert", "a.png"] globSelf =
      Outcome.run ⟨"-invert", 20, 0, true⟩ ∧
    "-invert" ∈ (["chalkboard", "-invert", "a.png"] : List String).drop 1 ∧
    "-invert" ∈ (["chalkboard", "a.png", "5", "2", "-invert"] : List String).drop 1 ∧
    ¬ "-invert" ∈ (["chalkboard", "a.png", "5", "2"] : List String).drop 1 ∧
    mainMask ⟨"a.png", 5, 2, true⟩ stepImage =
      (createMask stepImage 5 2).map invertImage ∧
    mainMask ⟨"a.png", 5, 2, false⟩ stepImage = createMask stepImage 5 2 :=
  ⟨by decide,
    (mainArgs_invert ["chalkboard", "-invert", "a.png"] globSelf
      ⟨"-invert", 20, 0, true⟩ (by decide)).1.1 rfl,
    (mainArgs_invert ["chalkboard", "a.png", "5", "2", "-invert"] globSelf
      ⟨"a.png", 5, 2, true⟩ (by decide)).1.1 rfl,
    fun h => absurd ((mainArgs_invert ["chalkboard", "a.png", "5", "2"] globSelf
      ⟨"a.png", 5, 2, false⟩ (by decide)).1.2 h) (by decide),
    ((mainArgs_invert ["chalkboard", "a.png", "5", "2", "-invert"] globSelf
      ⟨"a.png", 5, 2, true⟩ (by decide)).2 stepImage).1 rfl,
    ((mainArgs_invert ["chalkboard", "a.png", "5", "2"] globSelf
      ⟨"a.png", 5, 2, false⟩ (by decide)).2 stepImage).2 rfl⟩

end Chalkboard
